import Mathlib

/-!
# Verification of the ai-code-review core

Shallow embedding of the repository's core subsystems and proofs of the
specification's testable properties:

* the unified-diff parser (`src/modules/services/diff-parse.ts` legacy
  implementation `analyzeUnifiedDiff`),
* the diff chunker (`chunkParsedDiff`),
* the verification / fuzzy-matching engine (`verifyComments`,
  `FuzzyCodeMatcher`),
* the code-graph builder (`buildCodeGraph`).

Modelling conventions:

* JavaScript strings are modelled as `List Char` (`JStr`) where character-level
  processing matters, and as `String` in record fields; the two views are
  connected by `String.data` / `String.mk`.
* JavaScript numbers are modelled as `Nat` / `Int` where the source only ever
  holds integers, and as `ℚ` where the source computes fractions.  All the
  fractions appearing in the verified code paths are exact in IEEE doubles at
  the compared magnitudes, so exact rational arithmetic is a faithful model of
  the float computations the source performs.  Rationals are built with
  `mkRat` (exact division `num / den`) so that all values are kernel-computable.
* `async` file reads are modelled by an explicit oracle
  `fileLines : String → Option (List String)` (`none` = the read failed);
  the filesystem seen by the code-graph builder is an explicit tree value.
-/

namespace AiReview

/-- A JavaScript string viewed as its character sequence. -/
abbrev JStr := List Char

/-! ## Character/string helpers shared by several modules -/

/-- Whitespace characters of the ASCII fragment of the JS `\s` class
(the source only ever feeds ASCII text to these regexes). -/
def isWsChar (c : Char) : Bool :=
  c = ' ' || c = '\t' || c = '\n' || c = '\r'

/-- `[a-z0-9]` (used after lower-casing). -/
def isLowerAlnum (c : Char) : Bool :=
  ('a' ≤ c && c ≤ 'z') || ('0' ≤ c && c ≤ '9')

/-- `[A-Za-z0-9_]`, the JS regex word-character class used by the
symbol-grounding check. -/
def isWordChar (c : Char) : Bool :=
  ('A' ≤ c && c ≤ 'Z') || ('a' ≤ c && c ≤ 'z') || ('0' ≤ c && c ≤ '9') || c = '_'

/-- Replace every maximal run of whitespace by a single space
(JS `replace(/\s+/g, " ")` on a string whose non-whitespace part is already
normalized). -/
def collapseWs (l : JStr) : JStr :=
  l.foldr
    (fun c acc =>
      if isWsChar c then
        match acc with
        | ' ' :: _ => acc
        | _ => ' ' :: acc
      else c :: acc)
    []

/-- JS `String.prototype.trim` (whitespace stripped from both ends). -/
def trimWs (l : JStr) : JStr :=
  ((l.dropWhile isWsChar).reverse.dropWhile isWsChar).reverse

/-- JS `toLowerCase` on the ASCII fragment. -/
def lowerList (l : JStr) : JStr := l.map Char.toLower

/-- JS `String.prototype.split(" ")`: splits on every single space, and the
result is never empty (`"".split(" ") = [""]`). -/
def splitSp (l : JStr) : List JStr :=
  l.foldr
    (fun c r =>
      match r with
      | [] => [[]]
      | w :: ws => if c = ' ' then [] :: w :: ws else (c :: w) :: ws)
    [[]]

/-- JS `String.prototype.includes`: `w` occurs contiguously in `s`
(the empty string occurs in everything). -/
def isSubList : JStr → JStr → Bool
  | w, [] => w.isEmpty
  | w, c :: rest => w.isPrefixOf (c :: rest) || isSubList w rest

/-- Prefix test on character lists (JS `String.prototype.startsWith`). -/
def lpre (p : String) (l : JStr) : Bool := p.data.isPrefixOf l

/-- First-occurrence deduplication, the iteration order of a JS `Set`
built from an array (`[...new Set(xs)]`). -/
def dedupFirstAux {α : Type} [DecidableEq α] : List α → List α → List α
  | _, [] => []
  | seen, a :: l =>
    if a ∈ seen then dedupFirstAux seen l else a :: dedupFirstAux (a :: seen) l

/-- `[...new Set(xs)]`. -/
def dedupFirst {α : Type} [DecidableEq α] (l : List α) : List α := dedupFirstAux [] l

/-- Decimal digits of a natural number (fuel-based so that it is
kernel-computable); used only by the spec-side diff renderer. -/
def natCharsAux : Nat → Nat → JStr → JStr
  | 0, _, acc => acc
  | fuel + 1, n, acc =>
    if n < 10 then Nat.digitChar n :: acc
    else natCharsAux fuel (n / 10) (Nat.digitChar (n % 10) :: acc)

/-- Decimal rendering of a natural number. -/
def natChars (n : Nat) : JStr := natCharsAux (n + 1) n []

/-! ## Diff model (`src/modules/types.ts`)

`ParsedDiff` as produced by the legacy parser: files with hunks carrying
1-based target-line bounds and the added lines attributed to them. -/

/-- One added line of a hunk (`{ lineNumber, content }`). -/
structure AddedLine where
  lineNumber : Nat
  content : String
deriving DecidableEq

/-- One hunk of the legacy diff model. -/
structure ParsedHunk where
  filePath : String
  targetStart : Nat
  targetEnd : Nat
  addedLines : List AddedLine
deriving DecidableEq

/-- One file entry of a `ParsedDiff`. -/
structure FileDiff where
  path : String
  status : String
  hunks : List ParsedHunk
deriving DecidableEq

/-- The `summary` record of a `ParsedDiff`. -/
structure DiffSummary where
  added : Nat
  deleted : Nat
  filesChanged : Nat
deriving DecidableEq

/-- The legacy parsed-diff shape. -/
structure ParsedDiff where
  files : List FileDiff
  summary : DiffSummary
deriving DecidableEq

/-! ## The hand-rolled unified-diff parser (`src/unnamed/part_001`)

`analyzeUnifiedDiff` walks the diff text line by line, tracking the mutable
locals of the source (`files`, `currentPath`, `currentHunks`, `added`,
`deleted`, `targetLineStart`, `targetLine`) in an explicit state record. -/

/-- The mutable locals of `analyzeUnifiedDiff` as one state record. -/
structure PState where
  files : List FileDiff
  currentPath : Option JStr
  currentHunks : List ParsedHunk
  added : Nat
  deleted : Nat
  targetLineStart : Nat
  targetLine : Nat
deriving DecidableEq

/-- `flushFile`: push the current file and reset.  The JS guard
`if (currentPath)` treats both `null` and the empty string as falsy, so a
file section whose recorded path is the empty string is discarded — its
hunks are thrown away — while the `added`/`deleted` counters keep the
increments those hunks produced. -/
def flushFile (st : PState) : PState :=
  { st with
    files :=
      match st.currentPath with
      | none => st.files
      | some p =>
        if p = [] then st.files
        else st.files ++ [⟨String.mk p, "M", st.currentHunks⟩]
    currentPath := none
    currentHunks := [] }

/-- Rewrite the last element of a list in place (JS mutation of
`currentHunks[currentHunks.length - 1]`). -/
def updateLast : List ParsedHunk → (ParsedHunk → ParsedHunk) → List ParsedHunk
  | [], _ => []
  | [h], f => [f h]
  | h :: h' :: rest, f => h :: updateLast (h' :: rest) f

/-- First match of the JS regex `/\+([0-9]+)/` in a line: the digits after the
first `+` that is followed by at least one digit. -/
def findPlusNum : JStr → Option Nat
  | [] => none
  | '+' :: rest =>
    let ds := rest.takeWhile Char.isDigit
    if ds.isEmpty then findPlusNum rest
    else some (ds.foldl (fun a c => a * 10 + (c.toNat - 48)) 0)
  | _ :: rest => findPlusNum rest

/-- One iteration of the `for (const line of lines)` loop of
`analyzeUnifiedDiff`; the if/continue chain becomes a nested conditional. -/
def parseStep (st : PState) (line : JStr) : PState :=
  if lpre "diff --git" line then
    flushFile st
  else if lpre "+++ " line then
    { st with
      currentPath := some (if lpre "+++ b/" line then line.drop 6 else "unknown".data) }
  else if lpre "@@" line then
    let start := (findPlusNum line).getD 1
    { st with
      targetLineStart := start
      targetLine := start
      currentHunks :=
        st.currentHunks ++
          [⟨String.mk ((st.currentPath).getD "unknown".data), start, start, []⟩] }
  else if lpre "+" line && !lpre "+++" line then
    { st with
      added := st.added + 1
      currentHunks :=
        match st.currentHunks with
        | [] => st.currentHunks
        | _ =>
          updateLast st.currentHunks fun h =>
            { h with
              addedLines := h.addedLines ++ [⟨st.targetLine, String.mk (line.drop 1)⟩]
              targetEnd := max h.targetEnd st.targetLine }
      targetLine := st.targetLine + 1 }
  else if lpre "-" line && !lpre "---" line then
    { st with deleted := st.deleted + 1 }
  else if !lpre "diff --git" line && !lpre "index" line && !lpre "---" line &&
      !lpre "+++" line && !lpre "@@" line then
    { st with
      currentHunks :=
        match st.currentHunks with
        | [] => st.currentHunks
        | _ => updateLast st.currentHunks fun h => { h with targetEnd := max h.targetEnd st.targetLine }
      targetLine := st.targetLine + 1 }
  else st

/-- Initial parser state. -/
def initPState : PState := ⟨[], none, [], 0, 0, 0, 0⟩

/-- `analyzeUnifiedDiff` on a diff already split into lines
(the source splits the raw text on `"\n"` first and then runs this loop). -/
def analyzeUnifiedDiffLines (lines : List JStr) : ParsedDiff :=
  let st := flushFile (lines.foldl parseStep initPState)
  ⟨st.files, ⟨st.added, st.deleted, st.files.length⟩⟩

/-- `analyzeUnifiedDiff` of `src/unnamed/part_001` on the raw diff text. -/
def analyzeUnifiedDiff (diffText : String) : ParsedDiff :=
  analyzeUnifiedDiffLines ((diffText.splitOn "\n").map String.data)

/-! ### Spec-side model of a valid unified diff

A structured diff (files, hunks, added and deleted and context changes)
together with its
rendering to lines.  "Valid unified-diff text" in the specification's
properties is read as: the text is the rendering of such a structured diff
whose change contents do not themselves mimic diff metadata lines. -/

/-- One change line of a structured diff. -/
inductive RawChange where
  | add (content : JStr)
  | del (content : JStr)
  | ctx (content : JStr)
deriving DecidableEq

/-- One hunk of a structured diff, with its `@@`-header numbers. -/
structure RawHunk where
  oldStart : Nat
  oldCount : Nat
  newStart : Nat
  newCount : Nat
  changes : List RawChange
deriving DecidableEq

/-- One file section of a structured diff. -/
structure RawFile where
  oldPath : JStr
  path : JStr
  hunks : List RawHunk
deriving DecidableEq

/-- Render one change as its diff line. -/
def renderChange : RawChange → JStr
  | .add s => '+' :: s
  | .del s => '-' :: s
  | .ctx s => ' ' :: s

/-- Render one hunk: the `@@` header followed by its change lines. -/
def renderHunk (h : RawHunk) : List JStr :=
  ("@@ -".data ++
      (natChars h.oldStart ++ (",".data ++ (natChars h.oldCount ++
        (" +".data ++ (natChars h.newStart ++ (",".data ++ (natChars h.newCount ++
          " @@".data)))))))) ::
    h.changes.map renderChange

/-- Render one file section: `diff --git`, `index`, `---`, `+++` headers, then
the hunks. -/
def renderFile (f : RawFile) : List JStr :=
  ("diff --git a/".data ++ f.oldPath ++ " b/".data ++ f.path) ::
    "index 0000000..1111111 100644".data ::
    ("--- a/".data ++ f.oldPath) ::
    ("+++ b/".data ++ f.path) ::
    f.hunks.flatMap renderHunk

/-- Render a whole structured diff to its lines. -/
def renderDiff (d : List RawFile) : List JStr := d.flatMap renderFile

/-- A change content is good when the rendered line cannot be mistaken for a
`+++` or `---` metadata line. -/
def goodChange : RawChange → Prop
  | .add s => lpre "++" s = false
  | .del s => lpre "--" s = false
  | .ctx _ => True

instance : DecidablePred goodChange := fun c =>
  match c with
  | .add s => instDecidableEqBool (lpre "++" s) false
  | .del s => instDecidableEqBool (lpre "--" s) false
  | .ctx _ => inferInstanceAs (Decidable True)

/-- A structured diff is good when every change content is good. -/
def goodDiff (d : List RawFile) : Prop :=
  ∀ f ∈ d, ∀ h ∈ f.hunks, ∀ ch ∈ h.changes, goodChange ch

instance (d : List RawFile) : Decidable (goodDiff d) :=
  inferInstanceAs (Decidable (∀ f ∈ d, ∀ h ∈ f.hunks, ∀ ch ∈ h.changes, goodChange ch))

/-- The property C1 asserts of each hunk: every added line's number lies in
the hunk's target range. -/
def hunkOk (h : ParsedHunk) : Prop :=
  ∀ al ∈ h.addedLines, h.targetStart ≤ al.lineNumber ∧ al.lineNumber ≤ h.targetEnd

/-- Total number of added lines attributed to a list of hunks. -/
def addedCount (hs : List ParsedHunk) : Nat :=
  (hs.map fun h => h.addedLines.length).sum

/-- Total number of added lines attributed over all files' hunks. -/
def filesAdded (fs : List FileDiff) : Nat :=
  (fs.map fun f => addedCount f.hunks).sum

/-- Number of `add` changes in a structured hunk body. -/
def countAdds (cs : List RawChange) : Nat :=
  (cs.filter fun ch => match ch with | .add _ => true | _ => false).length

/-- Parser-state invariant maintained across file sections: all recorded
hunks satisfy `hunkOk`, the `added` counter equals the number of attributed
added lines, no hunks are pending without a current path, and the recorded
path is never the empty string (which holds along the parse of any
rendering whose file paths are nonempty, and keeps `flushFile`'s
falsy-path discard from firing). -/
structure BaseInv (st : PState) : Prop where
  filesOk : ∀ f ∈ st.files, ∀ h ∈ f.hunks, hunkOk h
  curOk : ∀ h ∈ st.currentHunks, hunkOk h
  count : st.added = filesAdded st.files + addedCount st.currentHunks
  pathNone : st.currentPath = none → st.currentHunks = []
  pathGood : ∀ p, st.currentPath = some p → p ≠ []

/-! ## Diff chunker (`src/unnamed/part_003`) -/

/-- A chunk: one file's hunk indices plus the token estimate. -/
structure DiffChunk where
  filePath : String
  hunks : List Nat
  tokenEstimate : Nat
deriving DecidableEq

/-- `estimateHunkTokens`: 4-characters-per-token length cost plus structural
overhead, floored at 80 (`Math.ceil(len/4)` is `(len+3)/4` on naturals). -/
def estimateHunkTokens (lines : List AddedLine) : Nat :=
  let lengthCost := lines.foldl (fun acc l => acc + (l.content.length + 3) / 4) 0
  let base := 32 + lines.length * 2
  max 80 (base + lengthCost)

/-- The inner `for (let i ...)` loop of `chunkParsedDiff` for one file:
`cur` is the chunk under construction (`current` in the source), `i` the
index of the next hunk. -/
def chunkHunksGo (maxT : Nat) (path : String) :
    Nat → Option DiffChunk → List ParsedHunk → List DiffChunk
  | _, cur, [] => cur.toList
  | i, cur, h :: rest =>
    let est := estimateHunkTokens h.addedLines
    match cur with
    | none => chunkHunksGo maxT path (i + 1) (some ⟨path, [i], est⟩) rest
    | some c =>
      if c.tokenEstimate + est > maxT || c.filePath ≠ path then
        c :: chunkHunksGo maxT path (i + 1) (some ⟨path, [i], est⟩) rest
      else
        chunkHunksGo maxT path (i + 1)
          (some { c with hunks := c.hunks ++ [i], tokenEstimate := c.tokenEstimate + est }) rest

/-- `chunkParsedDiff`: group each file's hunks into budget-bounded chunks
(the source default budget is 1200). -/
def chunkParsedDiff (parsed : ParsedDiff) (maxTokensPerChunk : Nat) : List DiffChunk :=
  parsed.files.flatMap fun f => chunkHunksGo maxTokensPerChunk f.path 0 none f.hunks

/-! ## Review comments (`src/modules/types.ts`) -/

/-- A generated review comment.  `line` is a JS number holding an integer. -/
structure ReviewComment where
  file : String
  line : Int
  severity : String
  smell : String
  rationale : String
  suggestion : String
deriving DecidableEq

/-! ## Verification engine (`src/unnamed/part_006`, also
`src/modules/verification/scripts.ts`, whose non-fuzzy fragment is
identical).  File reads are modelled by the oracle
`fileLines : String → Option (List String)`: `fileLines rel` is the line
list of `repoDir/rel` after splitting on `\r?\n`, or `none` when the read
fails. -/

/-- Exact `q * 100`, written so that it is kernel-computable
(`Rat.mul` is irreducible). -/
def mulHundred (q : ℚ) : ℚ := mkRat (q.num * 100) q.den

/-- A natural number as an exact rational. -/
def ratOfNat (n : Nat) : ℚ := mkRat n 1

/-- `normalize`: lower-case, replace everything outside `[a-z0-9\s]` by a
space, collapse whitespace runs, trim. -/
def normalize (s : String) : JStr :=
  trimWs (collapseWs ((lowerList s.data).map fun c =>
    if isLowerAlnum c || isWsChar c then c else ' '))

/-- `similarity`: 1 when the normalized strings are equal, otherwise the
number of distinct words of `normalize a` occurring as substrings of
`normalize b` (`nb.includes(w)`), divided by `a`'s word count (at least 1).
The JS float division is exact at these magnitudes, so the exact rational
`mkRat` models it. -/
def similarity (a b : String) : ℚ :=
  let na := normalize a
  let nb := normalize b
  if na = nb then 1
  else
    mkRat (dedupFirst ((splitSp na).filter fun w => isSubList w nb)).length
      (max (splitSp na).length 1)

/-- `fileAndLineExists` (the `readFile` is the oracle; a failed read is
`none` and yields `false` like the source's `catch`). -/
def fileAndLineExists (fileLines : String → Option (List String)) (rel : String)
    (line : Int) : Bool :=
  match fileLines rel with
  | none => false
  | some lines => decide (1 ≤ line) && decide (line ≤ (lines.length : Int))

/-- `hasNonTrivialSuggestion`: minimum trimmed length, and none of the
case-insensitive generic phrases `consider refactoring`, `improve
readability`, `add tests?` occurs (the optional `s?` cannot affect whether
the regex matches, so the substring `add test` is the exact test). -/
def hasNonTrivialSuggestion (c : ReviewComment) (minChars : Nat) : Bool :=
  let s := trimWs c.suggestion.data
  if s.length < minChars then false
  else
    let ls := lowerList s
    !(isSubList "consider refactoring".data ls ||
      isSubList "improve readability".data ls ||
      isSubList "add test".data ls)

/-- One position of the word-boundary regex match: `name` occurs at `i` in
`content` and both sides are non-word characters or the ends. -/
def matchesAt (name content : JStr) (i : Nat) : Bool :=
  ((content.drop i).take name.length == name) &&
  (i == 0 || !isWordChar (content.getD (i - 1) ' ')) &&
  (i + name.length == content.length || !isWordChar (content.getD (i + name.length) ' '))

/-- The JS regex `(^|[^A-Za-z0-9_])NAME([^A-Za-z0-9_]|$)` (with `NAME`
regex-escaped, hence literal) tested against `content`. -/
def occursDelimited (name content : JStr) : Bool :=
  (List.range (content.length + 1)).any (matchesAt name content)

/-- One entry of `definitionsByFile`. -/
structure DefEntry where
  name : String
  line : Int
deriving DecidableEq

/-- `referencesKnownSymbols` over `` `${rationale}\n${suggestion}` ``. -/
def referencesKnownSymbols (c : ReviewComment)
    (defsByFile : String → List DefEntry) : Bool :=
  let defs := defsByFile c.file
  if defs.isEmpty then true
  else
    defs.any fun d =>
      occursDelimited d.name.data (c.rationale.data ++ '\n' :: c.suggestion.data)

/-- `isDuplicateAgainst`: same file, same line, rationale similarity above
0.9 against some already-kept comment. -/
def isDuplicateAgainst (kept : List ReviewComment) (c : ReviewComment) : Bool :=
  kept.any fun k =>
    k.file == c.file && k.line == c.line &&
      decide (mkRat 9 10 < similarity k.rationale c.rationale)

/-! ## Fuzzy matcher (`src/unnamed/part_007`, `FuzzyCodeMatcher`)

The class is parameterised over the three similarity heuristics of the
external `fuzzball` library (`token_sort_ratio`, `partial_ratio`,
`token_set_ratio`), which return integer scores in `0..100`; the library is
an external dependency, not code of this repository.  The matcher state
`fileContents` (a JS `Map` in insertion order) is the association list
produced by `loadFiles`; `fileSymbols` is also populated by the source but
never read by the verified code paths, so it is omitted. -/

/-- The three external similarity heuristics (integer scores `0..100`). -/
structure Scorers where
  sortScore : String → String → Nat
  windowScore : String → String → Nat
  setScore : String → String → Nat

/-- `FuzzyMatchOptions` (defaults `0.6`, `5`, `true`). -/
structure FuzzyMatchOptions where
  minConfidence : ℚ
  maxContextMatches : Nat
  includeContext : Bool

/-- The constructor default options. -/
def defaultFuzzyOptions : FuzzyMatchOptions := ⟨mkRat 6 10, 5, true⟩

/-- JS `toLowerCase` on a `String`. -/
def lowerS (s : String) : String := String.mk (lowerList s.data)

/-- One scored line. -/
structure ContextMatch where
  file : String
  line : Int
  content : String
  score : Nat
deriving DecidableEq

/-- A suggested relocation. -/
structure SuggestedLoc where
  file : String
  line : Int
  confidence : ℚ
deriving DecidableEq

/-- Result of `findCommentLocation`. -/
structure FuzzyMatchResult where
  comment : ReviewComment
  confidence : ℚ
  suggestedLocation : Option SuggestedLoc
  contextMatches : List ContextMatch

/-- `loadFiles`: read each file, skipping failures, preserving order. -/
def loadFiles (fileLines : String → Option (List String)) (files : List String) :
    List (String × List String) :=
  files.filterMap fun f => (fileLines f).map fun ls => (f, ls)

/-- `Math.max` of the three heuristics on the lower-cased inputs. -/
def scoreLine (sc : Scorers) (rationale content : String) : Nat :=
  max (sc.sortScore (lowerS rationale) (lowerS content))
    (max (sc.windowScore (lowerS rationale) (lowerS content))
      (sc.setScore (lowerS rationale) (lowerS content)))

/-- Stable insertion into a score-descending list.  JS `Array.prototype.sort`
with comparator `(a, b) => b.score - a.score` is a stable sort, and a stable
sort by a total preorder has a unique result, so this insertion sort models
it exactly. -/
def insertDesc (m : ContextMatch) : List ContextMatch → List ContextMatch
  | [] => [m]
  | x :: xs => if x.score ≤ m.score then m :: x :: xs else x :: insertDesc m xs

/-- Stable sort by score descending. -/
def sortDesc (l : List ContextMatch) : List ContextMatch :=
  l.foldr insertDesc []

/-- `findCommentLocation`: score every line of every loaded file against the
comment's rationale, keep those at or above `minConfidence * 100`, sort by
score (stable), take the top `maxContextMatches`, and derive the confidence
and suggested location from the best match. -/
def findCommentLocation (sc : Scorers) (opts : FuzzyMatchOptions)
    (contents : List (String × List String)) (c : ReviewComment) :
    FuzzyMatchResult :=
  let contextMatches :=
    contents.flatMap fun fl =>
      fl.2.enum.filterMap fun il =>
        let score := scoreLine sc c.rationale il.2
        if mulHundred opts.minConfidence ≤ ratOfNat score then
          some ⟨fl.1, (il.1 : Int) + 1, il.2, score⟩
        else none
  let topMatches := (sortDesc contextMatches).take opts.maxContextMatches
  match topMatches.head? with
  | none => ⟨c, mkRat 0 1, none, if opts.includeContext then topMatches else []⟩
  | some best =>
    let confidence := mkRat best.score 100
    let suggested :=
      if opts.minConfidence ≤ confidence then
        some ⟨best.file, best.line, confidence⟩
      else none
    ⟨c, confidence, suggested, if opts.includeContext then topMatches else []⟩

/-- One record of the `misplaced` output. -/
structure MisplacedEntry where
  comment : ReviewComment
  originalLocation : String × Int
  suggestedLocation : SuggestedLoc
  contextEvidence : List ContextMatch

/-- `findMisplacedComments`.  The `contextEvidence` strings
`` `${file}:${line} (${score}% match): "${content}"` `` are modelled
structurally as the matches they are rendered from. -/
def findMisplacedComments (sc : Scorers) (opts : FuzzyMatchOptions)
    (contents : List (String × List String)) (comments : List ReviewComment) :
    List MisplacedEntry :=
  comments.filterMap fun comment =>
    let m := findCommentLocation sc opts contents comment
    match m.suggestedLocation with
    | some sug =>
      if opts.minConfidence ≤ m.confidence ∧
          (sug.file ≠ comment.file ∨ 5 < (sug.line - comment.line).natAbs) then
        some ⟨comment, (comment.file, comment.line), sug,
          m.contextMatches.filter fun cm =>
            mulHundred opts.minConfidence ≤ ratOfNat cm.score⟩
      else none
    | none => none

/-- A comment of the `enhanced` output, with its optional confidence. -/
structure EnhancedComment where
  comment : ReviewComment
  confidence : Option ℚ
deriving DecidableEq

/-- `enhanceCommentLocations`: rewrite `file`/`line` to the suggested
location when the confidence clears `minConfidence`. -/
def enhanceCommentLocations (sc : Scorers) (opts : FuzzyMatchOptions)
    (contents : List (String × List String)) (comments : List ReviewComment) :
    List EnhancedComment :=
  comments.map fun comment =>
    let m := findCommentLocation sc opts contents comment
    match m.suggestedLocation with
    | some sug =>
      if opts.minConfidence ≤ m.confidence then
        ⟨{ comment with file := sug.file, line := sug.line }, some m.confidence⟩
      else ⟨comment, none⟩
    | none => ⟨comment, none⟩

/-- `getSimilarity`: best of the three heuristics, scaled to `0..1`. -/
def getSimilarity (sc : Scorers) (t1 t2 : String) : ℚ :=
  mkRat
    (max (sc.sortScore (lowerS t1) (lowerS t2))
      (max (sc.windowScore (lowerS t1) (lowerS t2)) (sc.setScore (lowerS t1) (lowerS t2))))
    100

/-! ## `verifyComments` (`src/unnamed/part_006`) -/

/-- One record of the `dropped` output. -/
structure DroppedEntry where
  comment : ReviewComment
  reasons : List String
deriving DecidableEq

/-- The `VerificationResult` shape. -/
structure VerificationResult where
  kept : List ReviewComment
  dropped : List DroppedEntry
  enhanced : List EnhancedComment
  misplaced : List MisplacedEntry

/-- `VerifyOptions` (`repoDir` and the file reads are folded into the
`fileLines` oracle; `definitionsByFile` defaults to the empty record). -/
structure VerifyOptions where
  fileLines : String → Option (List String)
  definitionsByFile : String → List DefEntry
  minSuggestionChars : Option Nat
  enableFuzzyMatching : Bool
  fuzzyMatchOptions : Option FuzzyMatchOptions

/-- The first four reason pushes of the `for (const c of comments)` loop
body (location validity, suggestion substance, symbol grounding, exact
duplicate), in push order. -/
def checkBaseReasons (opts : VerifyOptions) (kept : List ReviewComment)
    (c : ReviewComment) : List String :=
  (if fileAndLineExists opts.fileLines c.file c.line then []
    else ["invalid-file-or-line"]) ++
  (if hasNonTrivialSuggestion c (opts.minSuggestionChars.getD 12) then []
    else ["suggestion-too-weak"]) ++
  (if referencesKnownSymbols c opts.definitionsByFile then []
    else ["no-known-symbols-referenced"]) ++
  (if isDuplicateAgainst kept c then ["duplicate-comment"] else [])

/-- The full reason list the loop body accumulates for one candidate `c`
given the kept-so-far list: the four base checks, then — only when the fuzzy
matcher `fz` is present and no reason has accumulated — the fuzzy-duplicate
check gated on the candidate's best location-match confidence exceeding
0.9. -/
def checkReasons (sc : Scorers)
    (fz : Option (FuzzyMatchOptions × List (String × List String)))
    (opts : VerifyOptions) (kept : List ReviewComment) (c : ReviewComment) :
    List String :=
  let rs := checkBaseReasons opts kept c
  match fz with
  | none => rs
  | some (fmo, contents) =>
    if rs = [] then
      if mkRat 9 10 < (findCommentLocation sc fmo contents c).confidence then
        if kept.any fun k =>
            decide (mkRat 17 20 < getSimilarity sc k.rationale c.rationale) then
          rs ++ ["fuzzy-duplicate-comment"]
        else rs
      else rs
    else rs

/-- The comment loop of `verifyComments`: partitions the comments into kept
and dropped, in input order, threading the growing kept list. -/
def verifyLoop (sc : Scorers)
    (fz : Option (FuzzyMatchOptions × List (String × List String)))
    (opts : VerifyOptions) :
    List ReviewComment → List ReviewComment →
      List ReviewComment × List DroppedEntry
  | kept, [] => (kept, [])
  | kept, c :: rest =>
    let rs := checkReasons sc fz opts kept c
    if rs = [] then verifyLoop sc fz opts (kept ++ [c]) rest
    else
      let r := verifyLoop sc fz opts kept rest
      (r.1, ⟨c, rs⟩ :: r.2)

/-- `verifyComments`. -/
def verifyComments (sc : Scorers) (comments : List ReviewComment)
    (opts : VerifyOptions) : VerificationResult :=
  let fz :=
    if opts.enableFuzzyMatching then
      some (opts.fuzzyMatchOptions.getD defaultFuzzyOptions,
        loadFiles opts.fileLines (dedupFirst (comments.map fun c => c.file)))
    else none
  let misplaced :=
    match fz with
    | some (fmo, contents) => findMisplacedComments sc fmo contents comments
    | none => []
  let enhanced :=
    match fz with
    | some (fmo, contents) => enhanceCommentLocations sc fmo contents comments
    | none => []
  let r := verifyLoop sc fz opts [] comments
  ⟨r.1, r.2, enhanced, misplaced⟩

/-! ## Spec-side definitions for the verification claims -/

/-- The similarity formula claim C3's words describe: the size of the
intersection of the two normalized word sets divided by the larger of the
two word counts. -/
def specSimilarity (a b : String) : ℚ :=
  let wa := dedupFirst (splitSp (normalize a))
  let wb := dedupFirst (splitSp (normalize b))
  mkRat ((wa.filter fun w => w ∈ wb).length) (max wa.length wb.length)

/-- Every line of every loaded file with its score against the comment's
rationale, in scan order and unfiltered (claim C9's "all loaded file
contents"). -/
def allLineMatches (sc : Scorers) (contents : List (String × List String))
    (c : ReviewComment) : List ContextMatch :=
  contents.flatMap fun fl =>
    fl.2.enum.map fun il =>
      ⟨fl.1, (il.1 : Int) + 1, il.2, scoreLine sc c.rationale il.2⟩

/-- One step of the earliest-maximum fold: replace the current best only on
a strictly larger score. -/
def fmStep (acc : Option ContextMatch) (m : ContextMatch) : Option ContextMatch :=
  match acc with
  | none => some m
  | some a => if a.score < m.score then some m else acc

/-- The earliest maximal-score element of a match list — the "best line
match" of claim C9, defined independently of the sorting the implementation
performs. -/
def firstMaxBy (l : List ContextMatch) : Option ContextMatch :=
  l.foldl fmStep none

/-! ## A model of the external fuzzball heuristics

`Modelled from the spec:` the `fuzzball` string-similarity library the
engine calls (`token_sort_ratio`, `partial_ratio`, `token_set_ratio`) is an
external dependency whose code is not in the repository; the spec describes
the three heuristics as "order-insensitive token matching, substring/partial
matching, set-based token matching" combined with `max`.  The model below
implements them over an edit-distance ratio; witnesses and counterexamples
instantiate the `Scorers` parameter with it. -/

/-- One row update of the Levenshtein dynamic program (substitution cost 2,
so the ratio agrees with the matching-character count). -/
def editStepGo (ca : Char) : List Char → List Nat → Nat → Nat → List Nat
  | [], _, _, _ => []
  | c :: cs, rem, diag, left =>
    let up := rem.headD 0
    let v := min (min (left + 1) (up + 1)) (diag + if ca = c then 0 else 2)
    v :: editStepGo ca cs rem.tail up v

/-- One full row of the edit-distance table. -/
def editStep (bs : JStr) (prev : List Nat) (ca : Char) : List Nat :=
  let diag := prev.headD 0
  let left := diag + 1
  left :: editStepGo ca bs prev.tail diag left

/-- Edit distance with substitution cost 2. -/
def editDist2 (a b : JStr) : Nat :=
  (a.foldl (editStep b) (List.range (b.length + 1))).getLastD 0

/-- `Modelled from the spec:` the fuzzball base ratio
`round(100 * (lensum - dist) / lensum)`, `0` when either side is empty. -/
def levScore (a b : JStr) : Nat :=
  if a.isEmpty || b.isEmpty then 0
  else
    let lensum := a.length + b.length
    let d := editDist2 a b
    (200 * (lensum - d) + lensum) / (2 * lensum)

/-- Tokens of the processed string. -/
def fbTokens (s : String) : List JStr :=
  (splitSp (normalize s)).filter fun w => !w.isEmpty

/-- Lexicographic order on character lists. -/
def jstrLt : JStr → JStr → Bool
  | [], [] => false
  | [], _ :: _ => true
  | _ :: _, [] => false
  | a :: as, b :: bs => if a < b then true else if b < a then false else jstrLt as bs

/-- Insertion into a lexicographically sorted token list. -/
def insertTok (w : JStr) : List JStr → List JStr
  | [] => [w]
  | x :: xs => if jstrLt w x then w :: x :: xs else x :: insertTok w xs

/-- Sort tokens lexicographically. -/
def sortToks (l : List JStr) : List JStr := l.foldr insertTok []

/-- Join tokens with single spaces. -/
def joinSp (l : List JStr) : JStr := List.intercalate [' '] l

/-- `Modelled from the spec:` order-insensitive token matching
(`token_sort_ratio`): ratio of the sorted-token joins. -/
def fbSortScore (a b : String) : Nat :=
  levScore (joinSp (sortToks (fbTokens a))) (joinSp (sortToks (fbTokens b)))

/-- `Modelled from the spec:` substring/partial matching (`partial_ratio`):
best ratio of the shorter string against every window of the longer. -/
def fbWindowScore (a b : String) : Nat :=
  let pa := normalize a
  let pb := normalize b
  let sh := if pa.length ≤ pb.length then pa else pb
  let lo := if pa.length ≤ pb.length then pb else pa
  if sh.isEmpty then 0
  else
    ((List.range (lo.length - sh.length + 1)).map fun i =>
      levScore sh ((lo.drop i).take sh.length)).foldl max 0

/-- `Modelled from the spec:` set-based token matching (`token_set_ratio`):
best ratio among the sorted intersection and each side's
intersection-plus-difference join. -/
def fbSetScore (a b : String) : Nat :=
  let ta := dedupFirst (fbTokens a)
  let tb := dedupFirst (fbTokens b)
  let inter := sortToks (ta.filter fun w => w ∈ tb)
  let diffAB := sortToks (ta.filter fun w => w ∉ tb)
  let diffBA := sortToks (tb.filter fun w => w ∉ ta)
  let t0 := joinSp inter
  let t1 := joinSp (inter ++ diffAB)
  let t2 := joinSp (inter ++ diffBA)
  max (levScore t0 t1) (max (levScore t0 t2) (levScore t1 t2))

/-- `Modelled from the spec:` the fuzzball heuristic triple. -/
def fuzzballModel : Scorers := ⟨fbSortScore, fbWindowScore, fbSetScore⟩

/-! ## Concrete example inputs used by witnesses and counterexamples -/

/-- A filesystem with one two-line file `a.txt` whose contents share nothing
with the example rationales. -/
def exLines : String → Option (List String) :=
  fun f => if f = "a.txt" then some ["zzzz", "zzzz"] else none

/-- An empty `definitionsByFile` record. -/
def exNoDefs : String → List DefEntry := fun _ => []

/-- Options with fuzzy matching disabled. -/
def exOptsPlain : VerifyOptions := ⟨exLines, exNoDefs, none, false, none⟩

/-- Options with fuzzy matching enabled (constructor-default fuzzy options). -/
def exOptsFuzzy : VerifyOptions := ⟨exLines, exNoDefs, none, true, none⟩

/-- A comment whose line exceeds `a.txt`'s two lines and whose suggestion has
five characters. -/
def exC7 : ReviewComment := ⟨"a.txt", 9, "minor", "style", "r", "abcde"⟩

/-- A kept comment with rationale `cat`. -/
def exKept3 : ReviewComment :=
  ⟨"a.txt", 1, "minor", "dup", "cat", "Use a bounded cache here instead"⟩

/-- A candidate at the same location with rationale `catalog`. -/
def exCand3 : ReviewComment :=
  ⟨"a.txt", 1, "minor", "dup", "catalog", "Use an unbounded cache here later"⟩

/-- Two comments with identical rationales at different lines of `a.txt`. -/
def exA : ReviewComment :=
  ⟨"a.txt", 1, "major", "bug", "Add a null check on the id parameter",
    "Validate id before dereferencing it"⟩

/-- See `exA`. -/
def exB : ReviewComment :=
  ⟨"a.txt", 2, "major", "bug", "Add a null check on the id parameter",
    "Validate id before dereferencing it"⟩

/-! ## Code-graph builder (`src/src/modules/analysis/code-graph.ts`)

The builder walks the repository tree, parses every source file, and joins
the per-file results into a graph.  The filesystem is modelled as an
explicit tree value `FsEntry`; absolute paths are segment lists (the path
`/repo/src/a.ts` is `["repo", "src", "a.ts"]`), and `node:path` operations
(`join`, `dirname`, `resolve`, `relative`) are segment operations.  The
per-file `readFile` + `oxc.parseSync` + AST walk is modelled as an oracle
`parse : List String → Option FileInfo` returning the file's import
specifiers in AST order together with the collected definitions; `none`
models a failed read or a failed parse, on which the source skips the file
(`continue`) after its node was already added.  `oxc-parser` and
`oxc-walker` are external dependencies, so the oracle is the interface the
repository code programs against.  The worker pool picks file indices in
increasing order and every per-file result (node add, definitions entry,
pending import pushes) is a function of that file alone, so the pool is
modelled as the in-order sequential schedule.

The two module-level globals of the source — `fileExistsCache` (never
invalidated) and `pendingResolutions` (never cleared) — are modelled as an
explicit `GlobalState` value threaded through `buildCodeGraph`. -/

/-- A filesystem entry: a file or a directory with its entries in `readdir`
order. -/
inductive FsEntry : Type where
  | file : String → FsEntry
  | dir : String → List FsEntry → FsEntry

/-- Name of an entry. -/
def entName : FsEntry → String
  | .file n => n
  | .dir n _ => n

/-- Directory test (`e.isDirectory()`). -/
def isDirE : FsEntry → Bool
  | .file _ => false
  | .dir _ _ => true

/-- Follow an absolute path from the root entry; `some` exactly when
`node:fs` `stat` succeeds (on a file or a directory alike). -/
def statPath (e : FsEntry) : List String → Option FsEntry
  | [] => some e
  | s :: rest =>
    match e with
    | .file _ => none
    | .dir _ es =>
      match es.find? (fun ch => entName ch = s) with
      | none => none
      | some ch => statPath ch rest

/-- Directory names `walkDir` skips. -/
def excludedDirNames : List String :=
  ["node_modules", "dist", "build", "out", ".git", "coverage", "__snapshots__", "vendor"]

/-- Entry names `walkDir` skips: dot-names and the excluded list. -/
def skipName (n : String) : Bool :=
  lpre "." n.data || excludedDirNames.contains n

/-- The regex `\.(ts|tsx|js|jsx)$` of `walkDir`. -/
def isSourceName (n : String) : Bool :=
  (".ts".data).isSuffixOf n.data || (".tsx".data).isSuffixOf n.data ||
    (".js".data).isSuffixOf n.data || (".jsx".data).isSuffixOf n.data

/-- Depth-first walk of a directory's entries accumulating absolute paths of
source files, exactly as `walkDir` does.  The source recursion terminates
because the tree is finite; the `fuel` argument makes the model total by
bounding the recursion depth, and every fuel at least the directory depth
of the tree computes the source's list, so the claims are stated for every
fuel. -/
def walkDir : Nat → List String → List FsEntry → List (List String)
  | 0, _, _ => []
  | fuel + 1, pre, es =>
    es.flatMap fun e =>
      if skipName (entName e) then []
      else
        match e with
        | .file n => if isSourceName n then [pre ++ [n]] else []
        | .dir n cs => walkDir fuel (pre ++ [n]) cs

/-- `discoverSourceFiles`: walk from the repository root (a directory). -/
def discoverSourceFiles (fuel : Nat) (fs : FsEntry) (repoDir : List String) :
    List (List String) :=
  match statPath fs repoDir with
  | some (.dir _ es) => walkDir fuel repoDir es
  | _ => []

/-- Split a specifier string at `/` (JS `split`). -/
def splitSlashAux (cur : JStr) : JStr → List String
  | [] => [String.mk cur.reverse]
  | c :: rest =>
    if c = '/' then String.mk cur.reverse :: splitSlashAux [] rest
    else splitSlashAux (c :: cur) rest

/-- Segments of a specifier string. -/
def splitSlash (s : String) : List String := splitSlashAux [] s.data

/-- Apply specifier segments to a base path: empty and `.` segments are
skipped, `..` pops (never above the root), anything else descends — the
segment semantics of `path.resolve`. -/
def applySegs : List String → List String → List String
  | base, [] => base
  | base, s :: rest =>
    if s = "" ∨ s = "." then applySegs base rest
    else if s = ".." then applySegs base.dropLast rest
    else applySegs (base ++ [s]) rest

/-- `path.resolve(dir, spec)` for a normalized absolute `dir`. -/
def resolvePath (dir : List String) (spec : String) : List String :=
  if lpre "/" spec.data then applySegs [] (splitSlash spec)
  else applySegs dir (splitSlash spec)

/-- Length of the common prefix of two segment lists. -/
def commonLen : List String → List String → Nat
  | a :: as, b :: bs => if a = b then commonLen as bs + 1 else 0
  | _, _ => 0

/-- Segments of `path.relative(root, p)` for normalized absolute inputs. -/
def relSegs (root p : List String) : List String :=
  List.replicate (root.length - commonLen root p) ".." ++ p.drop (commonLen root p)

/-- Join character lists with `/`. -/
def joinSlashData : List JStr → JStr
  | [] => []
  | [x] => x
  | x :: xs => x ++ '/' :: joinSlashData xs

/-- `fileAbsToRel`: `path.relative(repoDir, abs)` joined with forward
slashes. -/
def fileAbsToRel (root a : List String) : String :=
  String.mk (joinSlashData ((relSegs root a).map String.data))

/-- The `fileExistsCache` global: a `Map` keyed by path, modelled as an
append-only association list with first-match lookup (keys are only ever
inserted once, on a miss). -/
abbrev Cache := List (List String × Bool)

/-- `Map.has`/`Map.get` combined. -/
def lookupCache (c : Cache) (p : List String) : Option Bool :=
  (c.find? fun e => e.1 = p).map (fun e => e.2)

/-- `fileExists`: answer from the cache, or `stat` and cache the answer. -/
def fileExists (fs : FsEntry) (c : Cache) (p : List String) : Bool × Cache :=
  match lookupCache c p with
  | some b => (b, c)
  | none =>
    let b := (statPath fs p).isSome
    (b, c ++ [(p, b)])

/-- `${base}.ext` on the path string: the extension is glued onto the last
segment. -/
def addExt (base : List String) (ext : String) : List String :=
  match base.getLast? with
  | none => [ext]
  | some l => base.dropLast ++ [l ++ ext]

/-- The candidate list of `resolveModule`, in probe order. -/
def candidatePaths (base : List String) : List (List String) :=
  [base, addExt base ".ts", addExt base ".tsx", addExt base ".js", addExt base ".jsx",
    base ++ ["index.ts"], base ++ ["index.tsx"], base ++ ["index.js"], base ++ ["index.jsx"]]

/-- First candidate whose `fileExists` is true, threading the cache. -/
def firstExisting (fs : FsEntry) : Cache → List (List String) → Option (List String) × Cache
  | c, [] => (none, c)
  | c, p :: rest =>
    let r := fileExists fs c p
    if r.1 then (some p, r.2) else firstExisting fs r.2 rest

/-- `resolveModule`: bare/package specifiers (starting with neither `.` nor
`/`) resolve to nothing; otherwise the specifier is resolved against
the importing file's directory and the candidates are probed in order. -/
def resolveModule (fs : FsEntry) (c : Cache) (fromAbs : List String) (spec : String) :
    Option (List String) × Cache :=
  if lpre "." spec.data || lpre "/" spec.data then
    firstExisting fs c (candidatePaths (resolvePath fromAbs.dropLast spec))
  else (none, c)

/-- One entry of the `pendingResolutions` global. -/
structure PendingItem where
  fromAbs : List String
  fromRel : String
  spec : String
deriving DecidableEq

/-- One edge of the `CodeGraph` (`from`/`to`/`module` in the source). -/
structure Edge where
  fromFile : String
  toFile : String
  module : String
deriving DecidableEq

/-- The two module-level globals of `code-graph.ts`. -/
structure GlobalState where
  fileExistsCache : Cache
  pendingResolutions : List PendingItem

/-- A collected definition (`SymbolDef`); the `kind` union and position are
plain data here. -/
structure SymbolDef where
  filePath : String
  name : String
  kind : String
  exported : Bool
  text : String
deriving DecidableEq

/-- What the per-file read + parse + AST walk yields: the import specifiers
pushed to `pendingResolutions` (in AST order) and the collected
definitions. -/
structure FileInfo where
  imports : List String
  defs : List SymbolDef
deriving DecidableEq

/-- The import-resolution loop over `pendingResolutions` (lines 146–155):
for each item, resolve; on success take the repository-relative path and,
unless it starts with `..`, add it as a node and push the edge.  Returns
the added nodes, the edges, and the final cache, in loop order. -/
def resolveAll (fs : FsEntry) (root : List String) :
    Cache → List PendingItem → List String × List Edge × Cache
  | c, [] => ([], [], c)
  | c, item :: rest =>
    let r := resolveModule fs c item.fromAbs item.spec
    match r.1 with
    | none => resolveAll fs root r.2 rest
    | some a =>
      let toRel := fileAbsToRel root a
      if lpre ".." toRel.data then resolveAll fs root r.2 rest
      else
        let t := resolveAll fs root r.2 rest
        (toRel :: t.1, ⟨item.fromRel, toRel, item.spec⟩ :: t.2.1, t.2.2)

/-- Phase-1 node additions: one `nodes.add(rel)` per discovered file, before
the read is attempted. -/
def phase1Nodes (root : List String) (files : List (List String)) : List String :=
  files.map (fileAbsToRel root)

/-- Phase-1 `definitions[rel] = defs` assignments, in processing order;
files whose read or parse failed get no entry. -/
def phase1Defs (parse : List String → Option FileInfo) (root : List String)
    (files : List (List String)) : List (String × List SymbolDef) :=
  files.filterMap fun a => (parse a).map fun info => (fileAbsToRel root a, info.defs)

/-- Phase-1 pushes to the `pendingResolutions` global, in processing
order. -/
def phase1Items (parse : List String → Option FileInfo) (root : List String)
    (files : List (List String)) : List PendingItem :=
  files.flatMap fun a =>
    match parse a with
    | none => []
    | some info => info.imports.map fun spec => ⟨a, fileAbsToRel root a, spec⟩

/-- The outputs of `buildCodeGraph` the idempotence claim speaks about:
`graph.nodes` (`Array.from(nodes)`, insertion order), `graph.edges`, and
`definitions`.  The remaining outputs (`relevantDefinitions`, `summary`,
`fileMeta`) are pure functions of these and of the `ParsedDiff`
argument. -/
structure BuildOutput where
  nodes : List String
  edges : List Edge
  definitions : List (String × List SymbolDef)
deriving DecidableEq

/-- `buildCodeGraph`: discover the files, run phase 1 (appending this
run's import items to the `pendingResolutions` global), then resolve the whole
global list — including items left over from earlier runs — against the
`fileExistsCache` global. -/
def buildCodeGraph (parse : List String → Option FileInfo) (fuel : Nat) (fs : FsEntry)
    (repoDir : List String) (st : GlobalState) : BuildOutput × GlobalState :=
  let files := discoverSourceFiles fuel fs repoDir
  let pending := st.pendingResolutions ++ phase1Items parse repoDir files
  let r := resolveAll fs repoDir st.fileExistsCache pending
  (⟨dedupFirst (phase1Nodes repoDir files ++ r.1), r.2.1, phase1Defs parse repoDir files⟩,
    ⟨r.2.2, pending⟩)

/-- A cache in which every entry answers exactly what `stat` answers — the
state of the `fileExistsCache` global in any process that has only ever run
the builder against this filesystem. -/
def truthful (fs : FsEntry) (c : Cache) : Prop :=
  ∀ pr ∈ c, pr.2 = (statPath fs pr.1).isSome

/-- A cache that extends `c₀` only by truthful entries — the shape of the
`fileExistsCache` global after any amount of builder activity starting
from `c₀`. -/
def truthfulFrom (fs : FsEntry) (c₀ c : Cache) : Prop :=
  ∃ d, c = c₀ ++ d ∧ truthful fs d

/-- Filesystem and parse oracle of the directory-import example: the file
`a.ts` imports `./u`, and `u` is a directory (holding `f.ts`). -/
def cxFs : FsEntry :=
  .dir "" [.dir "repo" [.file "a.ts", .dir "u" [.file "f.ts"]]]

/-- See `cxFs`. -/
def cxParse : List String → Option FileInfo :=
  fun a => if a = ["repo", "a.ts"] then some ⟨["./u"], []⟩ else none


/-! # Theorems -/

/-! ## Diff chunker: C5 and C6 -/

/-- Concatenating the hunk-index lists of the chunks the inner loop produces
yields the open chunk's indices followed by `i, i+1, ...` — one index per
remaining hunk. -/
theorem chunkHunksGo_flatMap (maxT : Nat) (path : String) :
    ∀ (hs : List ParsedHunk) (i : Nat) (cur : Option DiffChunk),
      (chunkHunksGo maxT path i cur hs).flatMap (fun c => c.hunks) =
        (cur.elim [] fun c => c.hunks) ++ List.range' i hs.length
  | [], i, cur => by cases cur <;> simp [chunkHunksGo]
  | h :: rest, i, cur => by
    cases cur with
    | none =>
      simp only [chunkHunksGo, chunkHunksGo_flatMap maxT path rest]
      simp [List.range'_succ]
    | some c =>
      simp only [chunkHunksGo]
      split
      · simp only [List.flatMap_cons, chunkHunksGo_flatMap maxT path rest]
        simp [List.range'_succ]
      · simp only [chunkHunksGo_flatMap maxT path rest]
        simp [List.range'_succ]

/-- Every chunk the inner loop produces carries the file's path. -/
theorem chunkHunksGo_path (maxT : Nat) (path : String) :
    ∀ (hs : List ParsedHunk) (i : Nat) (cur : Option DiffChunk),
      (∀ c₀, cur = some c₀ → c₀.filePath = path) →
      ∀ c ∈ chunkHunksGo maxT path i cur hs, c.filePath = path
  | [], _, cur, hcur => by
    cases cur with
    | none => simp [chunkHunksGo]
    | some c₀ => simpa [chunkHunksGo] using hcur c₀ rfl
  | h :: rest, i, cur, hcur => by
    cases cur with
    | none =>
      simpa only [chunkHunksGo] using
        chunkHunksGo_path maxT path rest (i + 1) _ (by rintro c₀ ⟨rfl⟩; rfl)
    | some c₀ =>
      simp only [chunkHunksGo]
      split
      · intro c hc
        rcases List.mem_cons.mp hc with rfl | hc
        · exact hcur c rfl
        · exact chunkHunksGo_path maxT path rest (i + 1) _ (by rintro c' ⟨rfl⟩; rfl) c hc
      · exact chunkHunksGo_path maxT path rest (i + 1) _
          (by rintro c' ⟨rfl⟩; exact hcur c₀ rfl)

/-- Every chunk the inner loop produces fits the budget or holds exactly one
hunk index. -/
theorem chunkHunksGo_budget (maxT : Nat) (path : String) :
    ∀ (hs : List ParsedHunk) (i : Nat) (cur : Option DiffChunk),
      (∀ c₀, cur = some c₀ → c₀.tokenEstimate ≤ maxT ∨ c₀.hunks.length = 1) →
      ∀ c ∈ chunkHunksGo maxT path i cur hs,
        c.tokenEstimate ≤ maxT ∨ c.hunks.length = 1
  | [], _, cur, hcur => by
    cases cur with
    | none => simp [chunkHunksGo]
    | some c₀ => simpa [chunkHunksGo] using hcur c₀ rfl
  | h :: rest, i, cur, hcur => by
    cases cur with
    | none =>
      refine chunkHunksGo_budget maxT path rest (i + 1) _ ?_
      rintro c₀ ⟨rfl⟩
      by_cases hle : estimateHunkTokens h.addedLines ≤ maxT
      · exact Or.inl hle
      · exact Or.inr rfl
    | some c₀ =>
      simp only [chunkHunksGo]
      split
      · intro c hc
        rcases List.mem_cons.mp hc with rfl | hc
        · exact hcur c rfl
        · refine chunkHunksGo_budget maxT path rest (i + 1) _ ?_ c hc
          rintro c' ⟨rfl⟩
          by_cases hle : estimateHunkTokens h.addedLines ≤ maxT
          · exact Or.inl hle
          · exact Or.inr rfl
      · rename_i hcond
        refine chunkHunksGo_budget maxT path rest (i + 1) _ ?_
        rintro c' ⟨rfl⟩
        left
        simp only [Bool.or_eq_true, decide_eq_true_eq, not_or] at hcond
        exact Nat.le_of_not_lt hcond.1

/-- C5: for every `ParsedDiff` and positive token budget, every chunk produced
by `chunkParsedDiff` either has a `tokenEstimate` within the budget or consists
of exactly one hunk index (a single oversized hunk forming its own chunk), and
no hunk of any file is dropped. -/
theorem chunkParsedDiff_budget_or_singleton (parsed : ParsedDiff) (maxT : Nat)
    (hpos : 0 < maxT) :
    (∀ c ∈ chunkParsedDiff parsed maxT, c.tokenEstimate ≤ maxT ∨ c.hunks.length = 1) ∧
    (∀ f ∈ parsed.files, ∀ i < f.hunks.length,
      ∃ c ∈ chunkParsedDiff parsed maxT, c.filePath = f.path ∧ i ∈ c.hunks) := by
  constructor
  · intro c hc
    rcases List.mem_flatMap.mp hc with ⟨f, -, hcf⟩
    exact chunkHunksGo_budget maxT f.path f.hunks 0 none (by rintro c₀ ⟨⟩) c hcf
  · intro f hf i hi
    have hmem : i ∈ (chunkHunksGo maxT f.path 0 none f.hunks).flatMap (fun c => c.hunks) := by
      rw [chunkHunksGo_flatMap]
      simp only [Option.elim, List.nil_append]
      exact List.mem_range'.mpr ⟨i, hi, by omega⟩
    rcases List.mem_flatMap.mp hmem with ⟨c, hc, hic⟩
    refine ⟨c, List.mem_flatMap.mpr ⟨f, hf, hc⟩, ?_, hic⟩
    exact chunkHunksGo_path maxT f.path f.hunks 0 none (by rintro c₀ ⟨⟩) c hc

/-- Witness for C5 at a concrete diff and budget. -/
theorem chunkParsedDiff_budget_or_singleton_witness :
    0 < 90 ∧
      ((∀ c ∈ chunkParsedDiff
            ⟨[⟨"a.ts", "M", [⟨"a.ts", 1, 3, [⟨2, "hello"⟩, ⟨3, "world"⟩]⟩,
                             ⟨"a.ts", 11, 12, [⟨11, "tail"⟩]⟩]⟩], ⟨3, 0, 1⟩⟩ 90,
          c.tokenEstimate ≤ 90 ∨ c.hunks.length = 1) ∧
        (∀ f ∈ ([⟨"a.ts", "M", [⟨"a.ts", 1, 3, [⟨2, "hello"⟩, ⟨3, "world"⟩]⟩,
                             ⟨"a.ts", 11, 12, [⟨11, "tail"⟩]⟩]⟩] : List FileDiff),
          ∀ i < f.hunks.length,
          ∃ c ∈ chunkParsedDiff
            ⟨[⟨"a.ts", "M", [⟨"a.ts", 1, 3, [⟨2, "hello"⟩, ⟨3, "world"⟩]⟩,
                             ⟨"a.ts", 11, 12, [⟨11, "tail"⟩]⟩]⟩], ⟨3, 0, 1⟩⟩ 90,
            c.filePath = f.path ∧ i ∈ c.hunks)) :=
  ⟨by decide, chunkParsedDiff_budget_or_singleton _ 90 (by decide)⟩

/-- C6: `chunkParsedDiff` is lossless and order-preserving — its output is the
in-order concatenation of per-file blocks; within each file's block the
chunks' hunk-index lists concatenate to exactly `0, 1, ..., n-1` (so no index
is dropped or duplicated), and every chunk of the block carries that single
file's path. -/
theorem chunkParsedDiff_lossless (parsed : ParsedDiff) (maxT : Nat) :
    ∃ blocks : List (List DiffChunk),
      chunkParsedDiff parsed maxT = blocks.flatten ∧
      List.Forall₂
        (fun (f : FileDiff) (blk : List DiffChunk) =>
          blk.flatMap (fun c => c.hunks) = List.range f.hunks.length ∧
          ∀ c ∈ blk, c.filePath = f.path)
        parsed.files blocks := by
  refine ⟨parsed.files.map fun f => chunkHunksGo maxT f.path 0 none f.hunks, ?_, ?_⟩
  · rw [chunkParsedDiff]
    exact List.flatMap_def _ _
  rw [List.forall₂_map_right_iff]
  refine List.forall₂_same.mpr fun f _ => ⟨?_, ?_⟩
  · rw [chunkHunksGo_flatMap, List.range_eq_range']
    simp [Option.elim]
  · exact chunkHunksGo_path maxT f.path f.hunks 0 none (by rintro c₀ ⟨⟩)

/-! ## Diff parser: C1 -/

/-- A two-element prefix test failing makes every extension fail. -/
theorem isPrefixOf_grow_false {a b : Char} (t s : JStr)
    (h : List.isPrefixOf [a, b] s = false) :
    List.isPrefixOf (a :: b :: t) s = false := by
  rw [← Bool.not_eq_true] at h ⊢
  intro hpre
  exact h (List.isPrefixOf_iff_prefix.mpr
    ((List.prefix_append [a, b] t).trans (List.isPrefixOf_iff_prefix.mp hpre)))

/-- In-place rewrite of the last element of `hs ++ [h]`. -/
theorem updateLast_append (hs : List ParsedHunk) (h : ParsedHunk)
    (f : ParsedHunk → ParsedHunk) :
    updateLast (hs ++ [h]) f = hs ++ [f h] := by
  induction hs with
  | nil => rfl
  | cons b hs ih =>
    cases hc : hs ++ [h] with
    | nil => simp at hc
    | cons x xs =>
      simp only [List.cons_append, hc, updateLast]
      rw [← hc, ih]

/-- `parseStep` on a `diff --git` header flushes the current file. -/
theorem parseStep_diffGit (st : PState) (old new : JStr) :
    parseStep st ("diff --git a/".data ++ old ++ " b/".data ++ new) = flushFile st := rfl

/-- `parseStep` ignores the `index` metadata line. -/
theorem parseStep_index (st : PState) :
    parseStep st "index 0000000..1111111 100644".data = st := rfl

/-- `parseStep` ignores the `---` old-path header. -/
theorem parseStep_oldPath (st : PState) (old : JStr) :
    parseStep st ("--- a/".data ++ old) = st := rfl

/-- `parseStep` on the `+++` new-path header records the target path. -/
theorem parseStep_newPath (st : PState) (p : JStr) :
    parseStep st ("+++ b/".data ++ p) = { st with currentPath := some p } := by
  cases p <;> rfl

/-- `parseStep` on a hunk header opens a fresh hunk at the parsed start line. -/
theorem parseStep_hunkHeader (st : PState) (rest : JStr) :
    parseStep st ('@' :: '@' :: rest) =
      { st with
        targetLineStart := (findPlusNum ('@' :: '@' :: rest)).getD 1
        targetLine := (findPlusNum ('@' :: '@' :: rest)).getD 1
        currentHunks :=
          st.currentHunks ++
            [⟨String.mk ((st.currentPath).getD "unknown".data),
              (findPlusNum ('@' :: '@' :: rest)).getD 1,
              (findPlusNum ('@' :: '@' :: rest)).getD 1, []⟩] } := by
  cases rest <;> rfl

/-- `parseStep` on an added line counts it and attributes it to the open
hunk. -/
theorem parseStep_add (st : PState) (s : JStr) (hgood : lpre "++" s = false) :
    parseStep st ('+' :: s) =
      { st with
        added := st.added + 1
        currentHunks :=
          match st.currentHunks with
          | [] => st.currentHunks
          | _ =>
            updateLast st.currentHunks fun h =>
              { h with
                addedLines := h.addedLines ++ [⟨st.targetLine, String.mk s⟩]
                targetEnd := max h.targetEnd st.targetLine }
        targetLine := st.targetLine + 1 } := by
  have h3 : lpre "+++" ('+' :: s) = false := by
    show List.isPrefixOf ['+', '+', '+'] ('+' :: s) = false
    have hg : List.isPrefixOf ['+', '+'] s = false := hgood
    simp [List.isPrefixOf, hg]
  have h2 : lpre "+++ " ('+' :: s) = false := by
    show List.isPrefixOf ['+', '+', '+', ' '] ('+' :: s) = false
    have hg : List.isPrefixOf ['+', '+'] s = false := hgood
    have := isPrefixOf_grow_false (a := '+') (b := '+') [' '] s hg
    simp [List.isPrefixOf, this]
  have h1 : lpre "diff --git" ('+' :: s) = false := rfl
  have h4 : lpre "@@" ('+' :: s) = false := rfl
  have h5 : lpre "+" ('+' :: s) = true := by cases s <;> rfl
  simp only [parseStep, h1, h2, h3, h4, h5, Bool.false_eq_true, if_false,
    Bool.not_false, Bool.true_and, Bool.false_and, Bool.and_true, Bool.and_false,
    if_true, List.drop_succ_cons, List.drop_zero]

/-- `parseStep` on a deleted line only bumps the deletion counter. -/
theorem parseStep_del (st : PState) (s : JStr) (hgood : lpre "--" s = false) :
    parseStep st ('-' :: s) = { st with deleted := st.deleted + 1 } := by
  have h3 : lpre "---" ('-' :: s) = false := by
    show List.isPrefixOf ['-', '-', '-'] ('-' :: s) = false
    have hg : List.isPrefixOf ['-', '-'] s = false := hgood
    simp [List.isPrefixOf, hg]
  have h1 : lpre "diff --git" ('-' :: s) = false := rfl
  have h2 : lpre "+++ " ('-' :: s) = false := rfl
  have h4 : lpre "@@" ('-' :: s) = false := rfl
  have h5 : lpre "+" ('-' :: s) = false := rfl
  have h6 : lpre "-" ('-' :: s) = true := by cases s <;> rfl
  simp only [parseStep, h1, h2, h3, h4, h5, h6, Bool.false_eq_true, if_false,
    Bool.not_false, Bool.true_and, Bool.false_and, Bool.and_true, Bool.and_false,
    if_true]

/-- `parseStep` on a context line advances the target line and stretches the
open hunk's end. -/
theorem parseStep_ctx (st : PState) (s : JStr) :
    parseStep st (' ' :: s) =
      { st with
        currentHunks :=
          match st.currentHunks with
          | [] => st.currentHunks
          | _ =>
            updateLast st.currentHunks fun h =>
              { h with targetEnd := max h.targetEnd st.targetLine }
        targetLine := st.targetLine + 1 } := rfl

/-- Effect of one hunk body on the parser state: the open hunk absorbs the
added lines, every absorbed line stays within the hunk's target range, and
the `added` counter advances by the number of `add` changes. -/
theorem foldl_changes (cs : List RawChange) :
    ∀ (st : PState) (hs : List ParsedHunk) (h : ParsedHunk),
      (∀ ch ∈ cs, goodChange ch) →
      st.currentHunks = hs ++ [h] →
      h.targetStart ≤ st.targetLine →
      hunkOk h →
      ∃ (h' : ParsedHunk) (st' : PState),
        List.foldl parseStep st (cs.map renderChange) = st' ∧
        st'.files = st.files ∧
        st'.currentPath = st.currentPath ∧
        st'.currentHunks = hs ++ [h'] ∧
        h'.targetStart = h.targetStart ∧
        h'.targetStart ≤ st'.targetLine ∧
        hunkOk h' ∧
        st'.added = st.added + countAdds cs ∧
        h'.addedLines.length = h.addedLines.length + countAdds cs := by
  induction cs with
  | nil =>
    intro st hs h _ hcur hle hok
    exact ⟨h, st, rfl, rfl, rfl, hcur, rfl, hle, hok, by simp [countAdds],
      by simp [countAdds]⟩
  | cons ch cs ih =>
    intro st hs h hgood hcur hle hok
    have hgood' : ∀ c ∈ cs, goodChange c := fun c hc => hgood c (List.mem_cons_of_mem _ hc)
    cases ch with
    | add s =>
      have hg : lpre "++" s = false := hgood (.add s) (List.mem_cons_self _ _)
      have hstep : parseStep st (renderChange (.add s)) =
          { st with
            added := st.added + 1
            currentHunks := hs ++
              [{ h with
                  addedLines := h.addedLines ++ [⟨st.targetLine, String.mk s⟩]
                  targetEnd := max h.targetEnd st.targetLine }]
            targetLine := st.targetLine + 1 } := by
        rw [renderChange, parseStep_add st s hg, hcur]
        cases hs with
        | nil =>
          rw [show updateLast ([] ++ [h]) _ = [] ++ [_] from updateLast_append [] h _]
          rfl
        | cons a hs' =>
          rw [show updateLast ((a :: hs') ++ [h]) _ = (a :: hs') ++ [_] from
            updateLast_append (a :: hs') h _]
          rfl
      have hok1 : hunkOk
          { h with
            addedLines := h.addedLines ++ [⟨st.targetLine, String.mk s⟩]
            targetEnd := max h.targetEnd st.targetLine } := by
        intro al hal
        rcases List.mem_append.mp hal with hal | hal
        · rcases hok al hal with ⟨hl, hr⟩
          exact ⟨hl, hr.trans (le_max_left _ _)⟩
        · rcases List.mem_singleton.mp hal with rfl
          exact ⟨hle, le_max_right _ _⟩
      rcases ih
          { st with
            added := st.added + 1
            currentHunks := hs ++
              [{ h with
                  addedLines := h.addedLines ++ [⟨st.targetLine, String.mk s⟩]
                  targetEnd := max h.targetEnd st.targetLine }]
            targetLine := st.targetLine + 1 }
          hs _ hgood' rfl (Nat.le_succ_of_le hle) hok1 with
        ⟨h', st', heq, hfiles, hpath, hcur', hstart, hline, hok', hadded, hlen⟩
      refine ⟨h', st', ?_, hfiles, hpath, hcur', hstart, hline, hok', ?_, ?_⟩
      · rw [List.map_cons, List.foldl_cons, hstep, heq]
      · rw [hadded]
        simp only [countAdds, List.filter]
        simp
        omega
      · rw [hlen]
        simp only [countAdds, List.filter]
        simp
        omega
    | del s =>
      have hg : lpre "--" s = false := hgood (.del s) (List.mem_cons_self _ _)
      have hstep : parseStep st (renderChange (.del s)) =
          { st with deleted := st.deleted + 1 } := by
        rw [renderChange, parseStep_del st s hg]
      rcases ih { st with deleted := st.deleted + 1 } hs h hgood' hcur hle hok with
        ⟨h', st', heq, hfiles, hpath, hcur', hstart, hline, hok', hadded, hlen⟩
      refine ⟨h', st', ?_, hfiles, hpath, hcur', hstart, hline, hok', ?_, ?_⟩
      · rw [List.map_cons, List.foldl_cons, hstep, heq]
      · rw [hadded]
        simp only [countAdds, List.filter]
      · rw [hlen]
        simp only [countAdds, List.filter]
    | ctx s =>
      have hstep : parseStep st (renderChange (.ctx s)) =
          { st with
            currentHunks := hs ++ [{ h with targetEnd := max h.targetEnd st.targetLine }]
            targetLine := st.targetLine + 1 } := by
        rw [renderChange, parseStep_ctx st s, hcur]
        cases hs with
        | nil =>
          rw [show updateLast ([] ++ [h]) _ = [] ++ [_] from updateLast_append [] h _]
          rfl
        | cons a hs' =>
          rw [show updateLast ((a :: hs') ++ [h]) _ = (a :: hs') ++ [_] from
            updateLast_append (a :: hs') h _]
          rfl
      have hok1 : hunkOk { h with targetEnd := max h.targetEnd st.targetLine } := by
        intro al hal
        rcases hok al hal with ⟨hl, hr⟩
        exact ⟨hl, hr.trans (le_max_left _ _)⟩
      rcases ih
          { st with
            currentHunks := hs ++ [{ h with targetEnd := max h.targetEnd st.targetLine }]
            targetLine := st.targetLine + 1 }
          hs _ hgood' rfl (Nat.le_succ_of_le hle) hok1 with
        ⟨h', st', heq, hfiles, hpath, hcur', hstart, hline, hok', hadded, hlen⟩
      refine ⟨h', st', ?_, hfiles, hpath, hcur', hstart, hline, hok', ?_, ?_⟩
      · rw [List.map_cons, List.foldl_cons, hstep, heq]
      · rw [hadded]
        simp only [countAdds, List.filter]
      · rw [hlen]
        simp only [countAdds, List.filter]

/-- `parseStep` on an `@@` header written as `"@@ -" ++ tail`. -/
theorem parseStep_hunkHeaderApp (st : PState) (t : JStr) :
    parseStep st ("@@ -".data ++ t) =
      { st with
        targetLineStart := (findPlusNum ("@@ -".data ++ t)).getD 1
        targetLine := (findPlusNum ("@@ -".data ++ t)).getD 1
        currentHunks :=
          st.currentHunks ++
            [⟨String.mk ((st.currentPath).getD "unknown".data),
              (findPlusNum ("@@ -".data ++ t)).getD 1,
              (findPlusNum ("@@ -".data ++ t)).getD 1, []⟩] } := rfl

/-- Hunk lists sum added lines additively. -/
theorem addedCount_append (a b : List ParsedHunk) :
    addedCount (a ++ b) = addedCount a + addedCount b := by
  simp [addedCount, List.map_append, List.sum_append]

/-- `flushFile` preserves the parser invariant. -/
theorem flushFile_baseInv (st : PState) (hinv : BaseInv st) : BaseInv (flushFile st) := by
  cases hp : st.currentPath with
  | none =>
    have hnil := hinv.pathNone hp
    refine ⟨?_, ?_, ?_, ?_, ?_⟩
    · intro f hf
      simp only [flushFile, hp] at hf
      exact hinv.filesOk f hf
    · intro h hh
      simp [flushFile] at hh
    · simp only [flushFile, hp]
      simpa [addedCount, hnil] using hinv.count
    · intro _
      simp [flushFile]
    · intro q h
      exact absurd h (by simp [flushFile])
  | some p =>
    have hpne : p ≠ [] := hinv.pathGood p hp
    refine ⟨?_, ?_, ?_, ?_, ?_⟩
    · intro f hf
      simp only [flushFile, hp] at hf
      rw [if_neg hpne] at hf
      rcases List.mem_append.mp hf with hf | hf
      · exact hinv.filesOk f hf
      · rcases List.mem_singleton.mp hf with rfl
        exact fun h hh => hinv.curOk h hh
    · intro h hh
      simp [flushFile] at hh
    · simp only [flushFile, hp]
      rw [if_neg hpne]
      show st.added = filesAdded (st.files ++ [⟨String.mk p, "M", st.currentHunks⟩]) + addedCount []
      simp only [filesAdded, List.map_append, List.sum_append, addedCount, List.map_nil,
        List.sum_nil, List.map_cons, List.sum_cons]
      have := hinv.count
      simp only [filesAdded, addedCount] at this
      omega
    · intro _
      simp [flushFile]
    · intro q h
      exact absurd h (by simp [flushFile])

/-- Effect of one rendered hunk on the parser state: a single new hunk is
appended, it satisfies `hunkOk`, and `added` grows by the hunk's `add`
changes. -/
theorem foldl_renderHunk (h₀ : RawHunk) (st : PState)
    (hgood : ∀ ch ∈ h₀.changes, goodChange ch) :
    ∃ (hk : ParsedHunk) (st' : PState),
      List.foldl parseStep st (renderHunk h₀) = st' ∧
      st'.files = st.files ∧
      st'.currentPath = st.currentPath ∧
      st'.currentHunks = st.currentHunks ++ [hk] ∧
      hunkOk hk ∧
      st'.added = st.added + countAdds h₀.changes ∧
      hk.addedLines.length = countAdds h₀.changes := by
  set t : JStr :=
    natChars h₀.oldStart ++ (",".data ++ (natChars h₀.oldCount ++
      (" +".data ++ (natChars h₀.newStart ++ (",".data ++ (natChars h₀.newCount ++
        " @@".data)))))) with ht
  set s : Nat := (findPlusNum ("@@ -".data ++ t)).getD 1 with hsdef
  set hk0 : ParsedHunk :=
    ⟨String.mk ((st.currentPath).getD "unknown".data), s, s, []⟩ with hhk0
  have hok0 : hunkOk hk0 := by
    intro al hal
    rw [hhk0] at hal
    exact absurd hal (List.not_mem_nil al)
  rcases foldl_changes h₀.changes
      { st with targetLineStart := s, targetLine := s, currentHunks := st.currentHunks ++ [hk0] }
      st.currentHunks hk0 hgood rfl (by rw [hhk0]) hok0 with
    ⟨h', st', heq, hfiles, hpath, hcur', _, _, hok', hadded, hlen⟩
  refine ⟨h', st', ?_, ?_, ?_, hcur', hok', ?_, ?_⟩
  · rw [renderHunk, List.foldl_cons, parseStep_hunkHeaderApp]
    exact heq
  · rw [hfiles]
  · rw [hpath]
  · rw [hadded]
  · rw [hlen, hhk0]
    simp

/-- Effect of a rendered hunk sequence on the parser state. -/
theorem foldl_renderHunks (hsR : List RawHunk) :
    ∀ st : PState,
      (∀ h ∈ hsR, ∀ ch ∈ h.changes, goodChange ch) →
      BaseInv st →
      st.currentPath.isSome = true →
      ∃ st', List.foldl parseStep st (hsR.flatMap renderHunk) = st' ∧
        BaseInv st' ∧ st'.currentPath = st.currentPath ∧ st'.files = st.files := by
  induction hsR with
  | nil =>
    intro st _ hinv _
    exact ⟨st, rfl, hinv, rfl, rfl⟩
  | cons h₀ rest ih =>
    intro st hgood hinv hsome
    rcases foldl_renderHunk h₀ st (hgood h₀ (List.mem_cons_self _ _)) with
      ⟨hk, st1, heq1, hfiles1, hpath1, hcur1, hok1, hadded1, hlen1⟩
    have hinv1 : BaseInv st1 := by
      refine ⟨?_, ?_, ?_, ?_, ?_⟩
      · rw [hfiles1]
        exact hinv.filesOk
      · intro h hh
        rw [hcur1] at hh
        rcases List.mem_append.mp hh with hh | hh
        · exact hinv.curOk h hh
        · rcases List.mem_singleton.mp hh with rfl
          exact hok1
      · rw [hadded1, hfiles1, hcur1, addedCount_append]
        have := hinv.count
        simp only [addedCount, List.map_cons, List.map_nil, List.sum_cons, List.sum_nil] at *
        omega
      · intro hnone
        rw [hpath1] at hnone
        rw [hnone] at hsome
        exact absurd hsome (by simp)
      · intro p h
        rw [hpath1] at h
        exact hinv.pathGood p h
    rcases ih st1 (fun h hh => hgood h (List.mem_cons_of_mem _ hh)) hinv1
        (by rw [hpath1]; exact hsome) with
      ⟨st', heq, hinv', hpath', hfiles'⟩
    refine ⟨st', ?_, hinv', ?_, ?_⟩
    · rw [List.flatMap_cons, List.foldl_append, heq1, heq]
    · rw [hpath', hpath1]
    · rw [hfiles', hfiles1]

/-- Effect of one rendered file section: the previous file is flushed, the
section's hunks are parsed, and the invariant survives. -/
theorem foldl_renderFile (f : RawFile) (st : PState)
    (hgood : ∀ h ∈ f.hunks, ∀ ch ∈ h.changes, goodChange ch)
    (hpne : f.path ≠ []) (hinv : BaseInv st) :
    ∃ st', List.foldl parseStep st (renderFile f) = st' ∧ BaseInv st' := by
  have hflush : BaseInv (flushFile st) := flushFile_baseInv st hinv
  have hinv4 : BaseInv { flushFile st with currentPath := some f.path } :=
    ⟨hflush.filesOk, hflush.curOk, hflush.count, fun h => (Option.some_ne_none _ h).elim,
      fun p h => by injection h with h; rw [← h]; exact hpne⟩
  rcases foldl_renderHunks f.hunks { flushFile st with currentPath := some f.path }
      hgood hinv4 rfl with ⟨st', heq, hinv', -, -⟩
  refine ⟨st', ?_, hinv'⟩
  rw [renderFile, List.foldl_cons, List.foldl_cons, List.foldl_cons, List.foldl_cons,
    parseStep_diffGit, parseStep_index, parseStep_oldPath, parseStep_newPath]
  exact heq

/-- Effect of a whole rendered diff: the invariant survives. -/
theorem foldl_renderDiff (d : List RawFile) :
    ∀ st : PState, goodDiff d → (∀ f ∈ d, f.path ≠ []) → BaseInv st →
      ∃ st', List.foldl parseStep st (renderDiff d) = st' ∧ BaseInv st' := by
  induction d with
  | nil =>
    intro st _ _ hinv
    exact ⟨st, rfl, hinv⟩
  | cons f rest ih =>
    intro st hgood hpaths hinv
    rcases foldl_renderFile f st (hgood f (List.mem_cons_self _ _))
        (hpaths f (List.mem_cons_self _ _)) hinv with
      ⟨st1, heq1, hinv1⟩
    rcases ih st1 (fun g hg => hgood g (List.mem_cons_of_mem _ hg))
        (fun g hg => hpaths g (List.mem_cons_of_mem _ hg)) hinv1 with
      ⟨st', heq, hinv'⟩
    refine ⟨st', ?_, hinv'⟩
    rw [renderDiff, List.flatMap_cons, List.foldl_append, heq1]
    rw [renderDiff] at heq
    exact heq

/-- C1 (amended): for every valid unified diff — the rendering of a
structured diff whose change contents do not mimic diff metadata — all of
whose file paths are nonempty, in the `ParsedDiff` returned by
`analyzeUnifiedDiff` the total number of added lines summed over all files'
hunks equals `summary.added`, and every `AddedLine.lineNumber` of a hunk
satisfies `targetStart ≤ lineNumber ≤ targetEnd` for that hunk.  The
nonempty-path restriction is necessary: `flushFile` discards a file section
whose `+++ b/` path is empty while keeping its `added` increments (see the
counterexample). -/
theorem analyzeUnifiedDiff_added_sum_and_line_bounds (d : List RawFile)
    (hgood : goodDiff d) (hpaths : ∀ f ∈ d, f.path ≠ []) :
    (analyzeUnifiedDiffLines (renderDiff d)).summary.added =
      filesAdded (analyzeUnifiedDiffLines (renderDiff d)).files ∧
    ∀ f ∈ (analyzeUnifiedDiffLines (renderDiff d)).files, ∀ h ∈ f.hunks,
      ∀ al ∈ h.addedLines,
        h.targetStart ≤ al.lineNumber ∧ al.lineNumber ≤ h.targetEnd := by
  have hinv0 : BaseInv initPState :=
    ⟨by intro f hf; exact absurd hf (List.not_mem_nil f),
     by intro h hh; exact absurd hh (List.not_mem_nil h),
     by simp [initPState, filesAdded, addedCount],
     fun _ => rfl,
     fun p h => by simp [initPState] at h⟩
  rcases foldl_renderDiff d initPState hgood hpaths hinv0 with ⟨stE, heq, hinvE⟩
  have hfl : BaseInv (flushFile stE) := flushFile_baseInv stE hinvE
  constructor
  · have hfiles : (analyzeUnifiedDiffLines (renderDiff d)).files = (flushFile stE).files := by
      show (flushFile (List.foldl parseStep initPState (renderDiff d))).files = _
      rw [heq]
    have hadded : (analyzeUnifiedDiffLines (renderDiff d)).summary.added =
        (flushFile stE).added := by
      show (flushFile (List.foldl parseStep initPState (renderDiff d))).added = _
      rw [heq]
    rw [hadded, hfiles]
    have hc := hfl.count
    have hnil : (flushFile stE).currentHunks = [] := rfl
    rw [hnil] at hc
    simpa [addedCount] using hc
  · intro f hf h hh al hal
    have hf' : f ∈ (flushFile stE).files := by
      have : (analyzeUnifiedDiffLines (renderDiff d)).files =
          (flushFile (List.foldl parseStep initPState (renderDiff d))).files := rfl
      rw [this, heq] at hf
      exact hf
    exact hfl.filesOk f hf' h hh al hal

/-- Witness for C1 at a concrete two-file diff with nonempty paths. -/
theorem analyzeUnifiedDiff_added_sum_and_line_bounds_witness :
    goodDiff
        [⟨"a.ts".data, "a.ts".data,
          [⟨1, 2, 1, 3, [.ctx "x".data, .add "hello".data, .add "world".data]⟩,
           ⟨10, 1, 11, 2, [.add "tail".data, .ctx "y".data]⟩]⟩,
         ⟨"b.ts".data, "b.ts".data, [⟨5, 0, 5, 1, [.add "zz".data]⟩]⟩] ∧
      (∀ f ∈ [(⟨"a.ts".data, "a.ts".data,
          [⟨1, 2, 1, 3, [.ctx "x".data, .add "hello".data, .add "world".data]⟩,
           ⟨10, 1, 11, 2, [.add "tail".data, .ctx "y".data]⟩]⟩ : RawFile),
         ⟨"b.ts".data, "b.ts".data, [⟨5, 0, 5, 1, [.add "zz".data]⟩]⟩],
        f.path ≠ []) ∧
      ((analyzeUnifiedDiffLines (renderDiff
          [⟨"a.ts".data, "a.ts".data,
            [⟨1, 2, 1, 3, [.ctx "x".data, .add "hello".data, .add "world".data]⟩,
             ⟨10, 1, 11, 2, [.add "tail".data, .ctx "y".data]⟩]⟩,
           ⟨"b.ts".data, "b.ts".data, [⟨5, 0, 5, 1, [.add "zz".data]⟩]⟩])).summary.added =
        filesAdded (analyzeUnifiedDiffLines (renderDiff
          [⟨"a.ts".data, "a.ts".data,
            [⟨1, 2, 1, 3, [.ctx "x".data, .add "hello".data, .add "world".data]⟩,
             ⟨10, 1, 11, 2, [.add "tail".data, .ctx "y".data]⟩]⟩,
           ⟨"b.ts".data, "b.ts".data, [⟨5, 0, 5, 1, [.add "zz".data]⟩]⟩])).files ∧
      ∀ f ∈ (analyzeUnifiedDiffLines (renderDiff
          [⟨"a.ts".data, "a.ts".data,
            [⟨1, 2, 1, 3, [.ctx "x".data, .add "hello".data, .add "world".data]⟩,
             ⟨10, 1, 11, 2, [.add "tail".data, .ctx "y".data]⟩]⟩,
           ⟨"b.ts".data, "b.ts".data, [⟨5, 0, 5, 1, [.add "zz".data]⟩]⟩])).files,
        ∀ h ∈ f.hunks, ∀ al ∈ h.addedLines,
          h.targetStart ≤ al.lineNumber ∧ al.lineNumber ≤ h.targetEnd) :=
  ⟨by decide, by decide,
    analyzeUnifiedDiff_added_sum_and_line_bounds _ (by decide) (by decide)⟩

set_option maxRecDepth 1000000 in
/-- C1 counterexample to the unrestricted claim: a rendered file section
whose `+++ b/` path is empty (a good diff — its one change content mimics no
metadata) parses to `summary.added = 1` while the file — and with it every
hunk — is discarded by `flushFile`'s falsy-path guard, so the sum of
`addedLines.length` over all files' hunks is `0`, not `summary.added`. -/
theorem analyzeUnifiedDiff_empty_path_counterexample :
    goodDiff [⟨"a.ts".data, [], [⟨1, 1, 1, 1, [.add "x".data]⟩]⟩] ∧
      (analyzeUnifiedDiffLines (renderDiff
          [⟨"a.ts".data, [], [⟨1, 1, 1, 1, [.add "x".data]⟩]⟩])).summary.added = 1 ∧
      (analyzeUnifiedDiffLines (renderDiff
          [⟨"a.ts".data, [], [⟨1, 1, 1, 1, [.add "x".data]⟩]⟩])).files = [] ∧
      filesAdded (analyzeUnifiedDiffLines (renderDiff
          [⟨"a.ts".data, [], [⟨1, 1, 1, 1, [.add "x".data]⟩]⟩])).files = 0 := by
  decide

/-! ## Verification engine: helper lemmas -/

/-- The fuzzy stage either leaves the base reasons unchanged or, when they
are empty, possibly appends the fuzzy-duplicate reason. -/
theorem checkReasons_cases (sc : Scorers)
    (fz : Option (FuzzyMatchOptions × List (String × List String)))
    (opts : VerifyOptions) (kept : List ReviewComment) (c : ReviewComment) :
    checkReasons sc fz opts kept c = checkBaseReasons opts kept c ∨
      (checkBaseReasons opts kept c = [] ∧
        checkReasons sc fz opts kept c = ["fuzzy-duplicate-comment"]) := by
  cases fz with
  | none => exact Or.inl rfl
  | some p =>
    obtain ⟨fmo, contents⟩ := p
    by_cases h0 : checkBaseReasons opts kept c = []
    · by_cases h1 : mkRat 9 10 < (findCommentLocation sc fmo contents c).confidence
      · by_cases h2 : (kept.any fun k =>
            decide (mkRat 17 20 < getSimilarity sc k.rationale c.rationale)) = true
        · refine Or.inr ⟨h0, ?_⟩
          simp only [checkReasons]
          rw [if_pos h0, if_pos h1, if_pos h2, h0]
          rfl
        · refine Or.inl ?_
          simp only [checkReasons]
          rw [if_pos h0, if_pos h1, if_neg h2]
      · refine Or.inl ?_
        simp only [checkReasons]
        rw [if_pos h0, if_neg h1]
    · refine Or.inl ?_
      simp only [checkReasons]
      rw [if_neg h0]

/-- A base reason always survives into the full reason list. -/
theorem mem_checkReasons_of_base (sc : Scorers)
    (fz : Option (FuzzyMatchOptions × List (String × List String)))
    (opts : VerifyOptions) (kept : List ReviewComment) (c : ReviewComment)
    (r : String) (hr : r ∈ checkBaseReasons opts kept c) :
    r ∈ checkReasons sc fz opts kept c := by
  rcases checkReasons_cases sc fz opts kept c with hc | ⟨h0, hc⟩
  · rw [hc]; exact hr
  · rw [h0] at hr
    exact absurd hr (List.not_mem_nil r)

/-- A comment for which some reason always fires ends up dropped with that
reason. -/
theorem verifyLoop_drops (sc : Scorers)
    (fz : Option (FuzzyMatchOptions × List (String × List String)))
    (opts : VerifyOptions) (reason : String) (c : ReviewComment)
    (hreason : ∀ kept, reason ∈ checkReasons sc fz opts kept c) :
    ∀ (cs kept : List ReviewComment), c ∈ cs →
      ∃ d ∈ (verifyLoop sc fz opts kept cs).2, d.comment = c ∧ reason ∈ d.reasons := by
  intro cs
  induction cs with
  | nil =>
    intro kept h
    exact absurd h (List.not_mem_nil c)
  | cons a rest ih =>
    intro kept hmem
    rcases List.mem_cons.mp hmem with rfl | hmem
    · have hr := hreason kept
      have hne : checkReasons sc fz opts kept c ≠ [] := by
        intro h0
        rw [h0] at hr
        exact absurd hr (List.not_mem_nil _)
      simp only [verifyLoop, if_neg hne]
      exact ⟨⟨c, checkReasons sc fz opts kept c⟩, List.mem_cons_self _ _, rfl, hr⟩
    · simp only [verifyLoop]
      split
      · exact ih _ hmem
      · rcases ih kept hmem with ⟨d, hd, hrest⟩
        exact ⟨d, List.mem_cons_of_mem _ hd, hrest⟩

/-- Trimming never lengthens a string. -/
theorem trimWs_length_le (l : JStr) : (trimWs l).length ≤ l.length := by
  unfold trimWs
  calc ((l.dropWhile isWsChar).reverse.dropWhile isWsChar).reverse.length
      = ((l.dropWhile isWsChar).reverse.dropWhile isWsChar).length := List.length_reverse _
    _ ≤ (l.dropWhile isWsChar).reverse.length :=
      (List.dropWhile_sublist _).length_le
    _ = (l.dropWhile isWsChar).length := List.length_reverse _
    _ ≤ l.length := (List.dropWhile_sublist _).length_le

/-- `verifyComments` returns exactly the loop's partition. -/
theorem verifyComments_dropped_eq (sc : Scorers) (comments : List ReviewComment)
    (opts : VerifyOptions) :
    (verifyComments sc comments opts).dropped =
      (verifyLoop sc
        (if opts.enableFuzzyMatching then
          some (opts.fuzzyMatchOptions.getD defaultFuzzyOptions,
            loadFiles opts.fileLines (dedupFirst (comments.map fun c => c.file)))
        else none)
        opts [] comments).2 := rfl

/-! ## Verification engine: C7 -/

/-- C7: with the default minimum suggestion length (12), a comment whose
`line` exceeds the referenced file's line count is dropped with reason
`invalid-file-or-line`, and a comment whose suggestion text is 5 characters
long is dropped with reason `suggestion-too-weak`. -/
theorem verifyComments_drops_bad_line_and_weak_suggestion (sc : Scorers)
    (comments : List ReviewComment) (opts : VerifyOptions) (c : ReviewComment)
    (hc : c ∈ comments) (hmin : opts.minSuggestionChars = none) :
    (∀ ls, opts.fileLines c.file = some ls → (ls.length : Int) < c.line →
      ∃ d ∈ (verifyComments sc comments opts).dropped,
        d.comment = c ∧ "invalid-file-or-line" ∈ d.reasons) ∧
    (c.suggestion.length = 5 →
      ∃ d ∈ (verifyComments sc comments opts).dropped,
        d.comment = c ∧ "suggestion-too-weak" ∈ d.reasons) := by
  constructor
  · intro ls hls hlt
    rw [verifyComments_dropped_eq]
    refine verifyLoop_drops sc _ opts _ c (fun kept => ?_) comments [] hc
    refine mem_checkReasons_of_base _ _ _ _ _ _ ?_
    have hfalse : fileAndLineExists opts.fileLines c.file c.line = false := by
      unfold fileAndLineExists
      rw [hls]
      have : ¬ (c.line ≤ (ls.length : Int)) := by omega
      simp [this]
    unfold checkBaseReasons
    rw [hfalse]
    simp
  · intro hlen
    rw [verifyComments_dropped_eq]
    refine verifyLoop_drops sc _ opts _ c (fun kept => ?_) comments [] hc
    refine mem_checkReasons_of_base _ _ _ _ _ _ ?_
    have hshort : (trimWs c.suggestion.data).length < 12 := by
      have h1 := trimWs_length_le c.suggestion.data
      have h2 : c.suggestion.data.length = 5 := hlen
      omega
    have hfalse : hasNonTrivialSuggestion c (opts.minSuggestionChars.getD 12) = false := by
      rw [hmin]
      unfold hasNonTrivialSuggestion
      simp only [Option.getD]
      rw [if_pos hshort]
    unfold checkBaseReasons
    rw [hfalse]
    by_cases h1 : fileAndLineExists opts.fileLines c.file c.line <;> simp [h1]

/-- Witness for C7: a concrete comment with an out-of-range line and a
5-character suggestion. -/
theorem verifyComments_drops_bad_line_and_weak_suggestion_witness :
    exC7 ∈ [exC7] ∧ exOptsPlain.minSuggestionChars = none ∧
      ((∀ ls, exOptsPlain.fileLines exC7.file = some ls → (ls.length : Int) < exC7.line →
        ∃ d ∈ (verifyComments fuzzballModel [exC7] exOptsPlain).dropped,
          d.comment = exC7 ∧ "invalid-file-or-line" ∈ d.reasons) ∧
      (exC7.suggestion.length = 5 →
        ∃ d ∈ (verifyComments fuzzballModel [exC7] exOptsPlain).dropped,
          d.comment = exC7 ∧ "suggestion-too-weak" ∈ d.reasons)) :=
  ⟨by decide, rfl,
    verifyComments_drops_bad_line_and_weak_suggestion fuzzballModel [exC7] exOptsPlain
      exC7 (by decide) rfl⟩

/-! ## Verification engine: C10 -/

/-- The loop partitions `kept₀ ++ cs` into kept and dropped; every dropped
entry carries at least one reason. -/
theorem verifyLoop_partition (sc : Scorers)
    (fz : Option (FuzzyMatchOptions × List (String × List String)))
    (opts : VerifyOptions) :
    ∀ (cs kept : List ReviewComment),
      ((verifyLoop sc fz opts kept cs).1 ++
        (verifyLoop sc fz opts kept cs).2.map fun d => d.comment).Perm (kept ++ cs) ∧
      ∀ d ∈ (verifyLoop sc fz opts kept cs).2, d.reasons ≠ [] := by
  intro cs
  induction cs with
  | nil =>
    intro kept
    refine ⟨by simp [verifyLoop], ?_⟩
    intro d hd
    simp [verifyLoop] at hd
  | cons c rest ih =>
    intro kept
    simp only [verifyLoop]
    split
    · rcases ih (kept ++ [c]) with ⟨hperm, hdrop⟩
      refine ⟨hperm.trans ?_, hdrop⟩
      rw [List.append_assoc, List.singleton_append]
    · rename_i hrs
      rcases ih kept with ⟨hperm, hdrop⟩
      constructor
      · exact
          ((by simpa using List.perm_middle :
            ((verifyLoop sc fz opts kept rest).1 ++
              ((⟨c, checkReasons sc fz opts kept c⟩ : DroppedEntry) ::
                (verifyLoop sc fz opts kept rest).2).map fun d => d.comment).Perm
              (c :: ((verifyLoop sc fz opts kept rest).1 ++
                (verifyLoop sc fz opts kept rest).2.map fun d => d.comment)))).trans
            ((hperm.cons c).trans List.perm_middle.symm)
      · intro d hd
        rcases List.mem_cons.mp hd with rfl | hd
        · exact hrs
        · exact hdrop d hd

/-- Every enhanced record keeps all fields of its input comment except
possibly `file` and `line`. -/
theorem enhance_frame (sc : Scorers) (fmo : FuzzyMatchOptions)
    (contents : List (String × List String)) (comments : List ReviewComment) :
    ∀ e ∈ enhanceCommentLocations sc fmo contents comments, ∃ c ∈ comments,
      e.comment.severity = c.severity ∧ e.comment.smell = c.smell ∧
      e.comment.rationale = c.rationale ∧ e.comment.suggestion = c.suggestion := by
  intro e he
  rcases List.mem_map.mp he with ⟨c, hc, rfl⟩
  refine ⟨c, hc, ?_, ?_, ?_, ?_⟩ <;>
    · simp only [enhanceCommentLocations]
      cases (findCommentLocation sc fmo contents c).suggestedLocation with
      | none => rfl
      | some sug => split <;> first | rfl | (split_ifs <;> rfl)

/-- C10: `verifyComments` partitions its input — every input comment appears
exactly once in `kept` or (as the carried comment of) `dropped`, dropped
entries carry a non-empty reason list, and each `enhanced` record agrees
with an input comment on every field except possibly `file` and `line`
(the attached confidence aside).  Kept and dropped comments are the input
values themselves (the permutation is between those very lists), so all six
fields are unchanged. -/
theorem verifyComments_partition_and_frame (sc : Scorers)
    (comments : List ReviewComment) (opts : VerifyOptions) :
    ((verifyComments sc comments opts).kept ++
      (verifyComments sc comments opts).dropped.map fun d => d.comment).Perm comments ∧
    (∀ d ∈ (verifyComments sc comments opts).dropped, d.reasons ≠ []) ∧
    ∀ e ∈ (verifyComments sc comments opts).enhanced, ∃ c ∈ comments,
      e.comment.severity = c.severity ∧ e.comment.smell = c.smell ∧
      e.comment.rationale = c.rationale ∧ e.comment.suggestion = c.suggestion := by
  refine ⟨?_, ?_, ?_⟩
  · have h := (verifyLoop_partition sc
      (if opts.enableFuzzyMatching then
        some (opts.fuzzyMatchOptions.getD defaultFuzzyOptions,
          loadFiles opts.fileLines (dedupFirst (comments.map fun c => c.file)))
      else none) opts comments []).1
    simpa using h
  · have h := (verifyLoop_partition sc
      (if opts.enableFuzzyMatching then
        some (opts.fuzzyMatchOptions.getD defaultFuzzyOptions,
          loadFiles opts.fileLines (dedupFirst (comments.map fun c => c.file)))
      else none) opts comments []).2
    exact h
  · intro e he
    by_cases hf : opts.enableFuzzyMatching = true
    · have hrw : (verifyComments sc comments opts).enhanced =
          enhanceCommentLocations sc (opts.fuzzyMatchOptions.getD defaultFuzzyOptions)
            (loadFiles opts.fileLines (dedupFirst (comments.map fun c => c.file)))
            comments := by
        simp only [verifyComments, if_pos hf]
      rw [hrw] at he
      exact enhance_frame _ _ _ _ e he
    · have hrw : (verifyComments sc comments opts).enhanced = [] := by
        simp only [verifyComments, if_neg hf]
      rw [hrw] at he
      exact absurd he (List.not_mem_nil e)

/-! ## Verification engine: C3 -/

/-- Membership of the exact-duplicate reason in the base reason list. -/
theorem mem_base_duplicate_iff (opts : VerifyOptions) (kept : List ReviewComment)
    (c : ReviewComment) :
    "duplicate-comment" ∈ checkBaseReasons opts kept c ↔
      isDuplicateAgainst kept c = true := by
  unfold checkBaseReasons
  split_ifs <;> simp_all

/-- `isDuplicateAgainst` unfolded to its defining condition. -/
theorem isDuplicateAgainst_iff (kept : List ReviewComment) (c : ReviewComment) :
    isDuplicateAgainst kept c = true ↔
      ∃ k ∈ kept, k.file = c.file ∧ k.line = c.line ∧
        mkRat 9 10 < similarity k.rationale c.rationale := by
  simp [isDuplicateAgainst, List.any_eq_true, Bool.and_eq_true, beq_iff_eq,
    decide_eq_true_eq, and_assoc]

/-- C3 amended: in `verifyComments`'s per-candidate check, the rejection
reason `duplicate-comment` appears exactly when some already-kept comment
has the same file, the same line, and rationale similarity above 0.9 —
where similarity is the quantity the code computes: 1 when the two
normalized rationales are equal, else the number of distinct normalized
words of the kept rationale that occur as substrings of the candidate's
normalized rationale, divided by the kept rationale's word count. -/
theorem checkReasons_duplicate_iff (sc : Scorers)
    (fz : Option (FuzzyMatchOptions × List (String × List String)))
    (opts : VerifyOptions) (kept : List ReviewComment) (c : ReviewComment) :
    "duplicate-comment" ∈ checkReasons sc fz opts kept c ↔
      ∃ k ∈ kept, k.file = c.file ∧ k.line = c.line ∧
        mkRat 9 10 < similarity k.rationale c.rationale := by
  rcases checkReasons_cases sc fz opts kept c with hc | ⟨h0, hc⟩
  · rw [hc, mem_base_duplicate_iff, isDuplicateAgainst_iff]
  · rw [hc]
    constructor
    · intro hmem
      simp at hmem
    · intro hex
      exfalso
      have hmem : "duplicate-comment" ∈ checkBaseReasons opts kept c :=
        (mem_base_duplicate_iff opts kept c).mpr ((isDuplicateAgainst_iff kept c).mpr hex)
      rw [h0] at hmem
      exact absurd hmem (List.not_mem_nil _)

set_option maxRecDepth 1000000 in
/-- C3 counterexample: with kept rationale `cat` and candidate rationale
`catalog` at the same file and line, the code's similarity is 1 (`cat` is a
substring of `catalog`) and the reason `duplicate-comment` fires, while the
claim's word-set similarity (`specSimilarity`) is 0, below the 0.9
threshold — so the claim's "exactly when" fails at this input. -/
theorem checkReasons_duplicate_counterexample :
    "duplicate-comment" ∈
        checkReasons fuzzballModel none exOptsPlain [exKept3] exCand3 ∧
      ¬ (exKept3.file = exCand3.file ∧ exKept3.line = exCand3.line ∧
          mkRat 9 10 < specSimilarity exKept3.rationale exCand3.rationale) := by
  exact ⟨by decide, by decide⟩

/-! ## Verification engine: C4 -/

/-- The base reason list is empty exactly when all four prior checks pass. -/
theorem base_empty_iff (opts : VerifyOptions) (kept : List ReviewComment)
    (c : ReviewComment) :
    checkBaseReasons opts kept c = [] ↔
      fileAndLineExists opts.fileLines c.file c.line = true ∧
      hasNonTrivialSuggestion c (opts.minSuggestionChars.getD 12) = true ∧
      referencesKnownSymbols c opts.definitionsByFile = true ∧
      isDuplicateAgainst kept c = false := by
  unfold checkBaseReasons
  split_ifs <;> simp_all

/-- The fuzzy-duplicate reason is never among the base reasons. -/
theorem fuzzy_not_mem_base (opts : VerifyOptions) (kept : List ReviewComment)
    (c : ReviewComment) :
    "fuzzy-duplicate-comment" ∉ checkBaseReasons opts kept c := by
  unfold checkBaseReasons
  split_ifs <;> simp_all

/-- C4 amended: with fuzzy matching enabled, a comment receives the reason
`fuzzy-duplicate-comment` exactly when it passes all four prior checks,
its best fuzzy location match has confidence strictly above 0.9 (a gate the
original claim omits), and some already-kept comment's rationale scores
above 0.85 against the comment's rationale under the best-of-three
similarity heuristic. -/
theorem checkReasons_fuzzy_duplicate_iff (sc : Scorers) (fmo : FuzzyMatchOptions)
    (contents : List (String × List String)) (opts : VerifyOptions)
    (kept : List ReviewComment) (c : ReviewComment) :
    "fuzzy-duplicate-comment" ∈ checkReasons sc (some (fmo, contents)) opts kept c ↔
      (fileAndLineExists opts.fileLines c.file c.line = true ∧
        hasNonTrivialSuggestion c (opts.minSuggestionChars.getD 12) = true ∧
        referencesKnownSymbols c opts.definitionsByFile = true ∧
        isDuplicateAgainst kept c = false ∧
        mkRat 9 10 < (findCommentLocation sc fmo contents c).confidence ∧
        ∃ k ∈ kept, mkRat 17 20 < getSimilarity sc k.rationale c.rationale) := by
  by_cases h0 : checkBaseReasons opts kept c = []
  · by_cases h1 : mkRat 9 10 < (findCommentLocation sc fmo contents c).confidence
    · by_cases h2 : (kept.any fun k =>
          decide (mkRat 17 20 < getSimilarity sc k.rationale c.rationale)) = true
      · have hc : checkReasons sc (some (fmo, contents)) opts kept c =
            ["fuzzy-duplicate-comment"] := by
          simp only [checkReasons]
          rw [if_pos h0, if_pos h1, if_pos h2, h0]
          rfl
        rw [hc]
        have hex : ∃ k ∈ kept, mkRat 17 20 < getSimilarity sc k.rationale c.rationale := by
          simpa [List.any_eq_true, decide_eq_true_eq] using h2
        rcases (base_empty_iff opts kept c).mp h0 with ⟨hb1, hb2, hb3, hb4⟩
        simp only [List.mem_singleton]
        exact ⟨fun _ => ⟨hb1, hb2, hb3, hb4, h1, hex⟩, fun _ => trivial⟩
      · have hc : checkReasons sc (some (fmo, contents)) opts kept c = [] := by
          simp only [checkReasons]
          rw [if_pos h0, if_pos h1, if_neg h2]
          exact h0
        rw [hc]
        constructor
        · intro hmem
          exact absurd hmem (List.not_mem_nil _)
        · rintro ⟨-, -, -, -, -, hex⟩
          exact (h2 (by simpa [List.any_eq_true, decide_eq_true_eq] using hex)).elim
    · have hc : checkReasons sc (some (fmo, contents)) opts kept c = [] := by
        simp only [checkReasons]
        rw [if_pos h0, if_neg h1]
        exact h0
      rw [hc]
      constructor
      · intro hmem
        exact absurd hmem (List.not_mem_nil _)
      · rintro ⟨-, -, -, -, hgate, -⟩
        exact (h1 hgate).elim
  · have hc : checkReasons sc (some (fmo, contents)) opts kept c =
        checkBaseReasons opts kept c := by
      rcases checkReasons_cases sc (some (fmo, contents)) opts kept c with hc | ⟨he, -⟩
      · exact hc
      · exact absurd he h0
    rw [hc]
    constructor
    · intro hmem
      exact absurd hmem (fuzzy_not_mem_base opts kept c)
    · rintro ⟨hb1, hb2, hb3, hb4, -, -⟩
      exact absurd ((base_empty_iff opts kept c).mpr ⟨hb1, hb2, hb3, hb4⟩) h0

set_option maxRecDepth 1000000 in
/-- C4 counterexample: fuzzy matching enabled, the second comment passes all
prior checks and the already-kept first comment's rationale scores 1 > 0.85
against it (identical rationales), yet the second comment is kept rather
than dropped as a fuzzy duplicate: its best location match over the loaded
file contents has confidence 0, not above 0.9 — the gate the claim
omits. -/
theorem verifyComments_fuzzy_duplicate_counterexample :
    (verifyComments fuzzballModel [exA, exB] exOptsFuzzy).kept = [exA, exB] ∧
      (verifyComments fuzzballModel [exA, exB] exOptsFuzzy).dropped = [] ∧
      mkRat 17 20 < getSimilarity fuzzballModel exA.rationale exB.rationale := by
  exact ⟨by decide, by decide, by decide⟩

/-! ## Fuzzy relocation: C9 -/

/-- A fold seeded with a maximal element keeps it. -/
theorem foldl_fmStep_const : ∀ (l : List ContextMatch) (x : ContextMatch),
    (∀ y ∈ l, y.score ≤ x.score) → l.foldl fmStep (some x) = some x
  | [], _, _ => rfl
  | y :: l, x, h => by
    have hy : y.score ≤ x.score := h y (List.mem_cons_self _ _)
    have : fmStep (some x) y = some x := by
      simp [fmStep, Nat.not_lt.mpr hy]
    rw [List.foldl_cons, this]
    exact foldl_fmStep_const l x fun z hz => h z (List.mem_cons_of_mem _ hz)

/-- A fold seeded below a dominating element of the list lands on the first
such element. -/
theorem foldl_fmStep_reach : ∀ (l₁ : List ContextMatch) (x : ContextMatch)
    (l₂ : List ContextMatch) (a : ContextMatch),
    (∀ y ∈ l₁, y.score < x.score) → (∀ y ∈ l₂, y.score ≤ x.score) →
    a.score < x.score →
    (l₁ ++ x :: l₂).foldl fmStep (some a) = some x
  | [], x, l₂, a, _, h₂, ha => by
    have : fmStep (some a) x = some x := by simp [fmStep, ha]
    rw [List.nil_append, List.foldl_cons, this]
    exact foldl_fmStep_const l₂ x h₂
  | b :: l₁, x, l₂, a, h₁, h₂, ha => by
    have hb : b.score < x.score := h₁ b (List.mem_cons_self _ _)
    have h₁' : ∀ y ∈ l₁, y.score < x.score := fun y hy => h₁ y (List.mem_cons_of_mem _ hy)
    rw [List.cons_append, List.foldl_cons]
    by_cases hab : a.score < b.score
    · rw [show fmStep (some a) b = some b by simp [fmStep, hab]]
      exact foldl_fmStep_reach l₁ x l₂ b h₁' h₂ hb
    · rw [show fmStep (some a) b = some a by simp [fmStep, hab]]
      exact foldl_fmStep_reach l₁ x l₂ a h₁' h₂ ha

/-- Sufficiency of the first-maximum decomposition. -/
theorem firstMaxBy_of_decomp (l₁ : List ContextMatch) (x : ContextMatch)
    (l₂ : List ContextMatch)
    (h₁ : ∀ y ∈ l₁, y.score < x.score) (h₂ : ∀ y ∈ l₂, y.score ≤ x.score) :
    firstMaxBy (l₁ ++ x :: l₂) = some x := by
  cases l₁ with
  | nil =>
    show (x :: l₂).foldl fmStep none = some x
    rw [List.foldl_cons]
    exact foldl_fmStep_const l₂ x h₂
  | cons a l₁ =>
    show (a :: (l₁ ++ x :: l₂)).foldl fmStep none = some x
    rw [List.foldl_cons]
    exact foldl_fmStep_reach l₁ x l₂ a
      (fun y hy => h₁ y (List.mem_cons_of_mem _ hy)) h₂
      (h₁ a (List.mem_cons_self _ _))

/-- Necessity: a seeded fold result is either the seed dominating the list,
or the first element strictly exceeding everything before it. -/
theorem foldl_fmStep_cases : ∀ (l : List ContextMatch) (a x : ContextMatch),
    l.foldl fmStep (some a) = some x →
    (x = a ∧ ∀ y ∈ l, y.score ≤ a.score) ∨
      (a.score < x.score ∧ ∃ l₁ l₂, l = l₁ ++ x :: l₂ ∧
        (∀ y ∈ l₁, y.score < x.score) ∧ ∀ y ∈ l₂, y.score ≤ x.score)
  | [], a, x, h => by
    left
    have h2 : some a = some x := h
    injection h2 with h2
    refine ⟨h2.symm, ?_⟩
    intro y hy
    exact absurd hy (List.not_mem_nil y)
  | m :: l, a, x, h => by
    rw [List.foldl_cons] at h
    by_cases hm : a.score < m.score
    · have hstep : fmStep (some a) m = some m := by simp [fmStep, hm]
      rw [hstep] at h
      rcases foldl_fmStep_cases l m x h with ⟨rfl, hall⟩ | ⟨hlt, l₁, l₂, rfl, h₁, h₂⟩
      · right
        exact ⟨hm, [], l, rfl, fun y hy => absurd hy (List.not_mem_nil y), hall⟩
      · right
        refine ⟨hm.trans hlt, m :: l₁, l₂, rfl, ?_, h₂⟩
        intro y hy
        rcases List.mem_cons.mp hy with rfl | hy
        · exact hlt
        · exact h₁ y hy
    · have hstep : fmStep (some a) m = some a := by simp [fmStep, hm]
      rw [hstep] at h
      rcases foldl_fmStep_cases l a x h with ⟨rfl, hall⟩ | ⟨hlt, l₁, l₂, rfl, h₁, h₂⟩
      · left
        refine ⟨rfl, ?_⟩
        intro y hy
        rcases List.mem_cons.mp hy with rfl | hy
        · exact Nat.not_lt.mp hm
        · exact hall y hy
      · right
        refine ⟨hlt, m :: l₁, l₂, rfl, ?_, h₂⟩
        intro y hy
        rcases List.mem_cons.mp hy with rfl | hy
        · exact (Nat.not_lt.mp hm).trans_lt hlt
        · exact h₁ y hy

/-- Necessity of the first-maximum decomposition. -/
theorem firstMaxBy_decomp (l : List ContextMatch) (x : ContextMatch)
    (h : firstMaxBy l = some x) :
    ∃ l₁ l₂, l = l₁ ++ x :: l₂ ∧
      (∀ y ∈ l₁, y.score < x.score) ∧ ∀ y ∈ l₂, y.score ≤ x.score := by
  cases l with
  | nil => exact absurd h (by simp [firstMaxBy])
  | cons m l =>
    have h' : l.foldl fmStep (some m) = some x := h
    rcases foldl_fmStep_cases l m x h' with ⟨rfl, hall⟩ | ⟨hlt, l₁, l₂, rfl, h₁, h₂⟩
    · exact ⟨[], l, rfl, fun y hy => absurd hy (List.not_mem_nil y), hall⟩
    · refine ⟨m :: l₁, l₂, rfl, ?_, h₂⟩
      intro y hy
      rcases List.mem_cons.mp hy with rfl | hy
      · exact hlt
      · exact h₁ y hy

/-- `firstMaxBy` is `none` only on the empty list. -/
theorem firstMaxBy_eq_none_iff (l : List ContextMatch) :
    firstMaxBy l = none ↔ l = [] := by
  cases l with
  | nil => simp [firstMaxBy]
  | cons m l =>
    simp only [firstMaxBy, List.foldl_cons]
    constructor
    · intro h
      exfalso
      have : ∀ (l' : List ContextMatch) (a : ContextMatch),
          l'.foldl fmStep (some a) ≠ none := by
        intro l'
        induction l' with
        | nil => intro a h'; exact Option.some_ne_none a h'
        | cons b l' ih =>
          intro a
          rw [List.foldl_cons]
          by_cases hab : a.score < b.score
          · rw [show fmStep (some a) b = some b by simp [fmStep, hab]]
            exact ih b
          · rw [show fmStep (some a) b = some a by simp [fmStep, hab]]
            exact ih a
      exact this l m h
    · intro h
      exact absurd h (List.cons_ne_nil m l)

/-- How `firstMaxBy` evolves under `cons`. -/
theorem firstMaxBy_cons (m : ContextMatch) (l : List ContextMatch) :
    firstMaxBy (m :: l) =
      some (match firstMaxBy l with
        | none => m
        | some x => if x.score ≤ m.score then m else x) := by
  cases hl : firstMaxBy l with
  | none =>
    rw [(firstMaxBy_eq_none_iff l).mp hl]
    rfl
  | some x =>
    rcases firstMaxBy_decomp l x hl with ⟨l₁, l₂, rfl, h₁, h₂⟩
    by_cases hle : x.score ≤ m.score
    · have := firstMaxBy_of_decomp [] m (l₁ ++ x :: l₂)
        (fun y hy => absurd hy (List.not_mem_nil y))
        (fun y hy => by
          rcases List.mem_append.mp hy with hy | hy
          · exact ((h₁ y hy).le.trans hle)
          · rcases List.mem_cons.mp hy with rfl | hy
            · exact hle
            · exact (h₂ y hy).trans hle)
      simpa [hle] using this
    · have hmx : m.score < x.score := Nat.lt_of_not_le hle
      have := firstMaxBy_of_decomp (m :: l₁) x l₂
        (fun y hy => by
          rcases List.mem_cons.mp hy with rfl | hy
          · exact hmx
          · exact h₁ y hy) h₂
      simpa [hle] using this

/-- Head of a stable insertion. -/
theorem head_insertDesc (m : ContextMatch) (s : List ContextMatch) :
    (insertDesc m s).head? =
      some (match s.head? with
        | none => m
        | some x => if x.score ≤ m.score then m else x) := by
  cases s with
  | nil => rfl
  | cons x xs =>
    simp only [insertDesc]
    by_cases hc : x.score ≤ m.score
    · rw [if_pos hc]
      simp [hc]
    · rw [if_neg hc]
      simp [hc]

/-- Head of the stable descending sort is the earliest maximum. -/
theorem head_sortDesc (l : List ContextMatch) :
    (sortDesc l).head? = firstMaxBy l := by
  induction l with
  | nil => rfl
  | cons m l ih =>
    show (insertDesc m (sortDesc l)).head? = _
    rw [head_insertDesc, ih, firstMaxBy_cons]

/-- Filtering by a predicate the earliest maximum satisfies preserves it. -/
theorem firstMaxBy_filter (p : ContextMatch → Bool) (l : List ContextMatch)
    (b : ContextMatch) (hb : firstMaxBy l = some b) (hpb : p b = true) :
    firstMaxBy (l.filter p) = some b := by
  rcases firstMaxBy_decomp l b hb with ⟨l₁, l₂, rfl, h₁, h₂⟩
  rw [List.filter_append, List.filter_cons, if_pos hpb]
  exact firstMaxBy_of_decomp _ b _
    (fun y hy => h₁ y (List.mem_of_mem_filter hy))
    (fun y hy => h₂ y (List.mem_of_mem_filter hy))

/-- `mulHundred` is multiplication by 100. -/
theorem mulHundred_eq (q : ℚ) : mulHundred q = q * 100 := by
  rw [mulHundred, Rat.mkRat_eq_div]
  push_cast
  rw [mul_comm (q.num : ℚ) 100, mul_div_assoc, Rat.num_div_den, mul_comm]

/-- `ratOfNat` is the numeral embedding. -/
theorem ratOfNat_eq (s : Nat) : ratOfNat s = (s : ℚ) := by
  rw [ratOfNat, Rat.mkRat_one]
  push_cast
  rfl

/-- The admission test `minConfidence * 100 ≤ score` is equivalent to the
suggestion test `minConfidence ≤ score / 100`. -/
theorem mulHundred_le_iff (q : ℚ) (s : Nat) :
    (mulHundred q ≤ ratOfNat s) ↔ q ≤ mkRat s 100 := by
  rw [mulHundred_eq, ratOfNat_eq, Rat.mkRat_eq_div]
  push_cast
  rw [le_div_iff₀ (by norm_num : (0 : ℚ) < 100)]

/-- `ratOfNat` is monotone-reflecting. -/
theorem ratOfNat_le_ratOfNat (a b : Nat) : (ratOfNat a ≤ ratOfNat b) ↔ a ≤ b := by
  rw [ratOfNat_eq, ratOfNat_eq]
  exact_mod_cast Iff.rfl

/-- A guarded `filterMap` is a `filter` after `map`. -/
theorem filterMap_admit_eq (sc : Scorers) (fmo : FuzzyMatchOptions)
    (c : ReviewComment) (fname : String) (lines : List (Nat × String)) :
    (lines.filterMap fun il =>
      if mulHundred fmo.minConfidence ≤ ratOfNat (scoreLine sc c.rationale il.2) then
        some (⟨fname, (il.1 : Int) + 1, il.2, scoreLine sc c.rationale il.2⟩ : ContextMatch)
      else none) =
      (lines.map fun il =>
        (⟨fname, (il.1 : Int) + 1, il.2, scoreLine sc c.rationale il.2⟩ : ContextMatch)).filter
        fun m => decide (mulHundred fmo.minConfidence ≤ ratOfNat m.score) := by
  induction lines with
  | nil => rfl
  | cons il l ih =>
    simp only [List.filterMap_cons, List.map_cons, List.filter_cons]
    by_cases h : mulHundred fmo.minConfidence ≤ ratOfNat (scoreLine sc c.rationale il.2)
    · simp [h, ih]
    · simp [h, ih]

/-- The admitted matches of `findCommentLocation` are the filter of all line
matches by the admission threshold. -/
theorem contextMatches_eq (sc : Scorers) (fmo : FuzzyMatchOptions)
    (contents : List (String × List String)) (c : ReviewComment) :
    (contents.flatMap fun fl =>
      fl.2.enum.filterMap fun il =>
        if mulHundred fmo.minConfidence ≤ ratOfNat (scoreLine sc c.rationale il.2) then
          some (⟨fl.1, (il.1 : Int) + 1, il.2, scoreLine sc c.rationale il.2⟩ : ContextMatch)
        else none) =
      (allLineMatches sc contents c).filter
        fun m => decide (mulHundred fmo.minConfidence ≤ ratOfNat m.score) := by
  simp only [allLineMatches, List.filter_flatMap]
  exact congrArg (List.flatMap contents)
    (funext fun fl => filterMap_admit_eq sc fmo c fl.1 fl.2.enum)

/-- Everything `insertDesc` holds comes from the inserted element or the
list. -/
theorem mem_insertDesc (m y : ContextMatch) :
    ∀ l : List ContextMatch, y ∈ insertDesc m l ↔ y = m ∨ y ∈ l
  | [] => by simp [insertDesc]
  | x :: xs => by
    simp only [insertDesc]
    split
    · simp only [List.mem_cons]
    · rw [List.mem_cons, mem_insertDesc m y xs, List.mem_cons]
      tauto

/-- `sortDesc` preserves membership. -/
theorem mem_sortDesc (y : ContextMatch) :
    ∀ l : List ContextMatch, y ∈ sortDesc l ↔ y ∈ l
  | [] => Iff.rfl
  | m :: l => by
    show y ∈ insertDesc m (sortDesc l) ↔ _
    rw [mem_insertDesc, mem_sortDesc y l, List.mem_cons]

/-- Full characterisation of `findCommentLocation`'s outputs in terms of the
earliest best line match over all loaded file contents. -/
theorem findCommentLocation_char (sc : Scorers) (fmo : FuzzyMatchOptions)
    (contents : List (String × List String)) (c : ReviewComment)
    (hmax : 1 ≤ fmo.maxContextMatches) :
    (firstMaxBy (allLineMatches sc contents c) = none →
      (findCommentLocation sc fmo contents c).suggestedLocation = none) ∧
    ∀ b, firstMaxBy (allLineMatches sc contents c) = some b →
      (¬ mulHundred fmo.minConfidence ≤ ratOfNat b.score →
        (findCommentLocation sc fmo contents c).suggestedLocation = none) ∧
      (mulHundred fmo.minConfidence ≤ ratOfNat b.score →
        (findCommentLocation sc fmo contents c).suggestedLocation =
            some ⟨b.file, b.line, mkRat b.score 100⟩ ∧
          (findCommentLocation sc fmo contents c).confidence = mkRat b.score 100 ∧
          (fmo.includeContext = true →
            (findCommentLocation sc fmo contents c).contextMatches.head? = some b) ∧
          ∀ m ∈ (findCommentLocation sc fmo contents c).contextMatches,
            mulHundred fmo.minConfidence ≤ ratOfNat m.score) := by
  have hne : ¬ fmo.maxContextMatches = 0 := by omega
  constructor
  · intro hnone
    have hnil : allLineMatches sc contents c = [] := (firstMaxBy_eq_none_iff _).mp hnone
    simp [findCommentLocation, contextMatches_eq, hnil, sortDesc]
  · intro b hb
    constructor
    · intro hpb
      have hfe : (allLineMatches sc contents c).filter
          (fun m => decide (mulHundred fmo.minConfidence ≤ ratOfNat m.score)) = [] := by
        rw [List.filter_eq_nil_iff]
        intro y hy
        rcases firstMaxBy_decomp _ _ hb with ⟨l₁, l₂, hdec, h₁, h₂⟩
        have hyb : y.score ≤ b.score := by
          rw [hdec] at hy
          rcases List.mem_append.mp hy with hy | hy
          · exact (h₁ y hy).le
          · rcases List.mem_cons.mp hy with rfl | hy
            · exact le_refl _
            · exact h₂ y hy
        simp only [decide_eq_true_eq]
        intro hthr
        exact hpb (hthr.trans ((ratOfNat_le_ratOfNat y.score b.score).mpr hyb))
      simp [findCommentLocation, contextMatches_eq, hfe, sortDesc]
    · intro hpb
      have hfm : firstMaxBy ((allLineMatches sc contents c).filter
          (fun m => decide (mulHundred fmo.minConfidence ≤ ratOfNat m.score))) = some b :=
        firstMaxBy_filter _ _ b hb (decide_eq_true hpb)
      have hhead : ((sortDesc ((allLineMatches sc contents c).filter
          (fun m => decide (mulHundred fmo.minConfidence ≤ ratOfNat m.score)))).take
            fmo.maxContextMatches).head? = some b := by
        rw [List.head?_take, if_neg hne, head_sortDesc, hfm]
      have hconf : fmo.minConfidence ≤ mkRat b.score 100 := (mulHundred_le_iff _ _).mp hpb
      have hmemtop : ∀ m ∈ (sortDesc ((allLineMatches sc contents c).filter
          (fun m => decide (mulHundred fmo.minConfidence ≤ ratOfNat m.score)))).take
            fmo.maxContextMatches,
          mulHundred fmo.minConfidence ≤ ratOfNat m.score := by
        intro m hm
        have hm' := List.mem_of_mem_take hm
        rw [mem_sortDesc] at hm'
        simpa using List.of_mem_filter hm'
      simp only [findCommentLocation, contextMatches_eq, hhead]
      refine ⟨?_, ?_, ?_, ?_⟩
      · rw [if_pos hconf]
      · first | rfl | trivial
      · intro hinc
        rw [if_pos hinc]
        exact hhead
      · intro m hm
        by_cases hinc : fmo.includeContext = true
        · rw [if_pos hinc] at hm
          exact hmemtop m hm
        · rw [if_neg hinc] at hm
          exact absurd hm (List.not_mem_nil m)

/-- Inversion of membership in `findMisplacedComments`: every reported entry
comes from an input comment whose best line match clears the threshold and
differs from the declared location, and the entry's fields are determined by
that best match. -/
theorem findMisplaced_entry_inv (sc : Scorers) (fmo : FuzzyMatchOptions)
    (contents : List (String × List String)) (comments : List ReviewComment)
    (entry : MisplacedEntry) (hmax : 1 ≤ fmo.maxContextMatches)
    (hentry : entry ∈ findMisplacedComments sc fmo contents comments) :
    entry.comment ∈ comments ∧
    ∃ b, firstMaxBy (allLineMatches sc contents entry.comment) = some b ∧
      mulHundred fmo.minConfidence ≤ ratOfNat b.score ∧
      (b.file ≠ entry.comment.file ∨ 5 < (b.line - entry.comment.line).natAbs) ∧
      entry.originalLocation = (entry.comment.file, entry.comment.line) ∧
      entry.suggestedLocation = ⟨b.file, b.line, mkRat b.score 100⟩ ∧
      (fmo.includeContext = true → entry.contextEvidence.head? = some b) ∧
      ∀ m ∈ entry.contextEvidence, mulHundred fmo.minConfidence ≤ ratOfNat m.score := by
  rcases List.mem_filterMap.mp hentry with ⟨c', hc', hfc⟩
  rcases findCommentLocation_char sc fmo contents c' hmax with ⟨hnone, hsome⟩
  cases hb : firstMaxBy (allLineMatches sc contents c') with
  | none =>
    simp [findMisplacedComments, hnone hb] at hfc
  | some b =>
    rcases hsome b hb with ⟨hlow, hhigh⟩
    by_cases hpb : mulHundred fmo.minConfidence ≤ ratOfNat b.score
    · rcases hhigh hpb with ⟨hsug, hconf, hhead, hall⟩
      simp only [hsug, hconf] at hfc
      by_cases hcond : fmo.minConfidence ≤ mkRat b.score 100 ∧
          (b.file ≠ c'.file ∨ 5 < (b.line - c'.line).natAbs)
      · rw [if_pos hcond] at hfc
        injection hfc with hfc
        subst hfc
        refine ⟨hc', b, hb, hpb, hcond.2, rfl, rfl, ?_, ?_⟩
        · intro hinc
          have hhd := hhead hinc
          show ((findCommentLocation sc fmo contents c').contextMatches.filter fun cm =>
            decide (mulHundred fmo.minConfidence ≤ ratOfNat cm.score)).head? = some b
          cases hcm : (findCommentLocation sc fmo contents c').contextMatches with
          | nil =>
            rw [hcm] at hhd
            exact absurd hhd (by simp)
          | cons x xs =>
            rw [hcm] at hhd
            have hx : x = b := by simpa using hhd
            subst hx
            simp [hpb]
        · intro m hm
          have hm' : m ∈ (findCommentLocation sc fmo contents c').contextMatches.filter
              (fun cm => decide (mulHundred fmo.minConfidence ≤ ratOfNat cm.score)) := hm
          simpa using List.of_mem_filter hm'
      · rw [if_neg hcond] at hfc
        exact absurd hfc (by simp)
    · simp [hlow hpb] at hfc

/-- Construction of membership in `findMisplacedComments` from a qualifying
best line match. -/
theorem findMisplaced_entry_intro (sc : Scorers) (fmo : FuzzyMatchOptions)
    (contents : List (String × List String)) (comments : List ReviewComment)
    (c : ReviewComment) (b : ContextMatch) (hmax : 1 ≤ fmo.maxContextMatches)
    (hc : c ∈ comments)
    (hb : firstMaxBy (allLineMatches sc contents c) = some b)
    (hpb : mulHundred fmo.minConfidence ≤ ratOfNat b.score)
    (hdiff : b.file ≠ c.file ∨ 5 < (b.line - c.line).natAbs) :
    ∃ entry ∈ findMisplacedComments sc fmo contents comments, entry.comment = c := by
  rcases findCommentLocation_char sc fmo contents c hmax with ⟨-, hsome⟩
  rcases hsome b hb with ⟨-, hhigh⟩
  rcases hhigh hpb with ⟨hsug, hconf, -, -⟩
  refine ⟨⟨c, (c.file, c.line), ⟨b.file, b.line, mkRat b.score 100⟩,
      (findCommentLocation sc fmo contents c).contextMatches.filter fun cm =>
        decide (mulHundred fmo.minConfidence ≤ ratOfNat cm.score)⟩,
    List.mem_filterMap.mpr ⟨c, hc, ?_⟩, rfl⟩
  simp only [findMisplacedComments, hsug, hconf]
  rw [if_pos ⟨(mulHundred_le_iff fmo.minConfidence b.score).mp hpb, hdiff⟩]

/-- C9: in fuzzy mode a comment is reported in the misplaced list exactly
when its best line match over all loaded file contents — the earliest
maximal-score line — has confidence at least the configured minimum
(score at least `minConfidence * 100`) and either the match's file differs
from the comment's declared file or the absolute line-number delta exceeds
5; the record carries the original location, the suggested location with
its confidence `score / 100` (headed by the best match in the evidence when
context is included), and the matched evidence lines, each of which clears
the minimum confidence.  Stated for any retention cap of at least one
context match (the default is 5). -/
theorem findMisplacedComments_spec (sc : Scorers) (fmo : FuzzyMatchOptions)
    (contents : List (String × List String)) (comments : List ReviewComment)
    (hmax : 1 ≤ fmo.maxContextMatches) :
    ∀ c : ReviewComment,
      ((∃ entry ∈ findMisplacedComments sc fmo contents comments, entry.comment = c) ↔
        (c ∈ comments ∧ ∃ b, firstMaxBy (allLineMatches sc contents c) = some b ∧
          mulHundred fmo.minConfidence ≤ ratOfNat b.score ∧
          (b.file ≠ c.file ∨ 5 < (b.line - c.line).natAbs))) ∧
      ∀ entry ∈ findMisplacedComments sc fmo contents comments, entry.comment = c →
        entry.originalLocation = (c.file, c.line) ∧
        (∃ b, firstMaxBy (allLineMatches sc contents c) = some b ∧
          entry.suggestedLocation = ⟨b.file, b.line, mkRat b.score 100⟩ ∧
          (fmo.includeContext = true → entry.contextEvidence.head? = some b)) ∧
        ∀ m ∈ entry.contextEvidence,
          mulHundred fmo.minConfidence ≤ ratOfNat m.score := by
  intro c
  constructor
  · constructor
    · rintro ⟨entry, hentry, rfl⟩
      rcases findMisplaced_entry_inv sc fmo contents comments entry hmax hentry with
        ⟨hc, b, hb, hpb, hdiff, -, -, -, -⟩
      exact ⟨hc, b, hb, hpb, hdiff⟩
    · rintro ⟨hc, b, hb, hpb, hdiff⟩
      exact findMisplaced_entry_intro sc fmo contents comments c b hmax hc hb hpb hdiff
  · intro entry hentry hcomm
    rcases findMisplaced_entry_inv sc fmo contents comments entry hmax hentry with
      ⟨-, b, hb, hpb, hdiff, horig, hsug, hhead, hall⟩
    subst hcomm
    exact ⟨horig, ⟨b, hb, hsug, hhead⟩, hall⟩

set_option maxRecDepth 1000000 in
/-- Witness for `findMisplacedComments_spec`: with the modelled fuzzball
scorers and the default options, a comment declared in `a.txt` whose
rationale exactly matches the single line of `b.txt` is reported as
misplaced. -/
theorem findMisplacedComments_spec_witness :
    ∃ entry ∈ findMisplacedComments fuzzballModel defaultFuzzyOptions
        [("b.txt", ["ab"])] [⟨"a.txt", 1, "major", "bug", "ab", "s"⟩],
      entry.comment = ⟨"a.txt", 1, "major", "bug", "ab", "s"⟩ :=
  ((findMisplacedComments_spec fuzzballModel defaultFuzzyOptions
      [("b.txt", ["ab"])] [⟨"a.txt", 1, "major", "bug", "ab", "s"⟩]
      (by decide) ⟨"a.txt", 1, "major", "bug", "ab", "s"⟩).1).mpr
    ⟨by decide, ⟨"b.txt", 1, "ab", 100⟩, by decide, by decide, by decide⟩

/-! ## Code-graph builder: C2 and C8 -/

/-- The empty cache is truthful. -/
theorem truthful_nil (fs : FsEntry) : truthful fs [] :=
  fun pr h => absurd h (List.not_mem_nil pr)

/-- A cache is a truthful extension of itself. -/
theorem truthfulFrom_refl (fs : FsEntry) (c : Cache) : truthfulFrom fs c c :=
  ⟨[], by simp, truthful_nil fs⟩

/-- On a truthful cache, `fileExists` answers exactly `stat` and keeps the
cache truthful. -/
theorem fileExists_spec (fs : FsEntry) (c : Cache) (p : List String)
    (hc : truthful fs c) :
    (fileExists fs c p).1 = (statPath fs p).isSome ∧
      truthful fs (fileExists fs c p).2 := by
  cases hl : lookupCache c p with
  | some b =>
    have hb : b = (statPath fs p).isSome := by
      rcases Option.map_eq_some'.mp hl with ⟨e, hfind, hb⟩
      have hmem := List.mem_of_find?_eq_some hfind
      have hpred : e.1 = p := by simpa using List.find?_some hfind
      rw [← hb, hc e hmem, hpred]
    simp only [fileExists, hl]
    exact ⟨hb, hc⟩
  | none =>
    simp only [fileExists, hl]
    refine ⟨by first | rfl | trivial, ?_⟩
    intro pr hpr
    rcases List.mem_append.mp hpr with h | h
    · exact hc pr h
    · have hpr' : pr = (p, (statPath fs p).isSome) := by simpa using h
      rw [hpr']

/-- `fileExists`'s boolean answer depends only on the base cache it
truthfully extends: a cached base answer is returned as is, and everything
else is the `stat` truth. -/
theorem fileExists_fst_of_truthfulFrom (fs : FsEntry) (c₀ c : Cache)
    (p : List String) (h : truthfulFrom fs c₀ c) :
    (fileExists fs c p).1 =
      match lookupCache c₀ p with
      | some b => b
      | none => (statPath fs p).isSome := by
  rcases h with ⟨d, rfl, hd⟩
  cases h0 : lookupCache c₀ p with
  | some b =>
    have hl : lookupCache (c₀ ++ d) p = some b := by
      rcases Option.map_eq_some'.mp h0 with ⟨e, hfind, hb⟩
      unfold lookupCache
      rw [List.find?_append, hfind]
      simp [hb]
    simp [fileExists, hl]
  | none =>
    have h0' : c₀.find? (fun e => e.1 = p) = none := Option.map_eq_none'.mp h0
    cases hd' : lookupCache d p with
    | some b =>
      have hl : lookupCache (c₀ ++ d) p = some b := by
        unfold lookupCache at hd' ⊢
        rw [List.find?_append, h0']
        simpa using hd'
      have hb : b = (statPath fs p).isSome := by
        rcases Option.map_eq_some'.mp hd' with ⟨e, hfind, hb⟩
        have hmem := List.mem_of_find?_eq_some hfind
        have hpred : e.1 = p := by simpa using List.find?_some hfind
        rw [← hb, hd e hmem, hpred]
      simp [fileExists, hl, hb]
    | none =>
      have hl : lookupCache (c₀ ++ d) p = none := by
        unfold lookupCache at hd' ⊢
        rw [List.find?_append, h0']
        simpa using hd'
      simp [fileExists, hl]

/-- `fileExists` preserves truthful extension of the base cache. -/
theorem fileExists_truthfulFrom (fs : FsEntry) (c₀ c : Cache) (p : List String)
    (h : truthfulFrom fs c₀ c) :
    truthfulFrom fs c₀ (fileExists fs c p).2 := by
  rcases h with ⟨d, rfl, hd⟩
  cases hl : lookupCache (c₀ ++ d) p with
  | some b =>
    simp only [fileExists, hl]
    exact ⟨d, rfl, hd⟩
  | none =>
    simp only [fileExists, hl]
    refine ⟨d ++ [(p, (statPath fs p).isSome)], by simp, ?_⟩
    intro pr hpr
    rcases List.mem_append.mp hpr with h | h
    · exact hd pr h
    · have hpr' : pr = (p, (statPath fs p).isSome) := by simpa using h
      rw [hpr']

/-- On a truthful cache, `firstExisting` keeps the cache truthful and any
found candidate is a listed candidate on which `stat` succeeds. -/
theorem firstExisting_spec (fs : FsEntry) (ps : List (List String)) :
    ∀ c : Cache, truthful fs c →
      truthful fs (firstExisting fs c ps).2 ∧
      ∀ p, (firstExisting fs c ps).1 = some p →
        p ∈ ps ∧ (statPath fs p).isSome = true := by
  induction ps with
  | nil =>
    intro c hc
    exact ⟨hc, fun p h => absurd h (by simp [firstExisting])⟩
  | cons p0 rest ih =>
    intro c hc
    rcases fileExists_spec fs c p0 hc with ⟨hfst, hc'⟩
    simp only [firstExisting]
    by_cases hb : (fileExists fs c p0).1 = true
    · rw [if_pos hb]
      refine ⟨hc', ?_⟩
      intro p hp
      injection hp with hp
      subst hp
      exact ⟨List.mem_cons_self p0 rest, by rw [← hfst]; exact hb⟩
    · rw [if_neg hb]
      rcases ih (fileExists fs c p0).2 hc' with ⟨ht, hsome⟩
      refine ⟨ht, ?_⟩
      intro p hp
      rcases hsome p hp with ⟨hmem, hstat⟩
      exact ⟨List.mem_cons_of_mem p0 hmem, hstat⟩

/-- `firstExisting`'s found candidate depends only on the base cache the
current cache truthfully extends, and truthful extension is preserved. -/
theorem firstExisting_stable (fs : FsEntry) (c₀ : Cache) (ps : List (List String)) :
    ∀ c c' : Cache, truthfulFrom fs c₀ c → truthfulFrom fs c₀ c' →
      (firstExisting fs c ps).1 = (firstExisting fs c' ps).1 ∧
      truthfulFrom fs c₀ (firstExisting fs c ps).2 := by
  induction ps with
  | nil =>
    intro c c' h h'
    exact ⟨rfl, h⟩
  | cons p0 rest ih =>
    intro c c' h h'
    have hfst : (fileExists fs c p0).1 = (fileExists fs c' p0).1 := by
      rw [fileExists_fst_of_truthfulFrom fs c₀ c p0 h,
        fileExists_fst_of_truthfulFrom fs c₀ c' p0 h']
    have ht := fileExists_truthfulFrom fs c₀ c p0 h
    have ht' := fileExists_truthfulFrom fs c₀ c' p0 h'
    simp only [firstExisting]
    by_cases hb : (fileExists fs c p0).1 = true
    · rw [if_pos hb, if_pos (hfst ▸ hb)]
      exact ⟨rfl, ht⟩
    · rw [if_neg hb, if_neg (hfst ▸ hb)]
      exact ih (fileExists fs c p0).2 (fileExists fs c' p0).2 ht ht'

/-- On a truthful cache, `resolveModule` keeps the cache truthful, and a
successful resolution means the specifier was path-like (starting with `.`
or `/`) and `stat` succeeds on the resolved absolute path. -/
theorem resolveModule_spec (fs : FsEntry) (c : Cache) (fromAbs : List String)
    (spec : String) (hc : truthful fs c) :
    truthful fs (resolveModule fs c fromAbs spec).2 ∧
    ∀ a, (resolveModule fs c fromAbs spec).1 = some a →
      (lpre "." spec.data || lpre "/" spec.data) = true ∧
        (statPath fs a).isSome = true := by
  simp only [resolveModule]
  by_cases hs : (lpre "." spec.data || lpre "/" spec.data) = true
  · rw [if_pos hs]
    rcases firstExisting_spec fs (candidatePaths (resolvePath fromAbs.dropLast spec)) c hc with
      ⟨ht, hsome⟩
    exact ⟨ht, fun a ha => ⟨hs, (hsome a ha).2⟩⟩
  · rw [if_neg hs]
    exact ⟨hc, fun a ha => absurd ha (by simp)⟩

/-- `resolveModule`'s result depends only on the base cache the current
cache truthfully extends, and truthful extension is preserved. -/
theorem resolveModule_stable (fs : FsEntry) (c₀ : Cache) (fromAbs : List String)
    (spec : String) (c c' : Cache) (h : truthfulFrom fs c₀ c)
    (h' : truthfulFrom fs c₀ c') :
    (resolveModule fs c fromAbs spec).1 = (resolveModule fs c' fromAbs spec).1 ∧
    truthfulFrom fs c₀ (resolveModule fs c fromAbs spec).2 := by
  simp only [resolveModule]
  by_cases hs : (lpre "." spec.data || lpre "/" spec.data) = true
  · rw [if_pos hs, if_pos hs]
    exact firstExisting_stable fs c₀ (candidatePaths (resolvePath fromAbs.dropLast spec))
      c c' h h'
  · rw [if_neg hs, if_neg hs]
    exact ⟨rfl, h⟩

/-- On a truthful cache, the resolution loop keeps the cache truthful, and
every produced edge comes with the absolute path it resolved to: a path-like
specifier, a `stat` success, the repository-relative rendering, and the
passed `..`-guard. -/
theorem resolveAll_spec (fs : FsEntry) (root : List String) (items : List PendingItem) :
    ∀ c : Cache, truthful fs c →
      truthful fs (resolveAll fs root c items).2.2 ∧
      ∀ e ∈ (resolveAll fs root c items).2.1,
        (lpre "." e.module.data || lpre "/" e.module.data) = true ∧
        ∃ a, (statPath fs a).isSome = true ∧ e.toFile = fileAbsToRel root a ∧
          lpre ".." (fileAbsToRel root a).data = false := by
  induction items with
  | nil =>
    intro c hc
    exact ⟨hc, fun e he => absurd he (List.not_mem_nil e)⟩
  | cons item rest ih =>
    intro c hc
    rcases resolveModule_spec fs c item.fromAbs item.spec hc with ⟨hc', hres⟩
    cases hr : (resolveModule fs c item.fromAbs item.spec).1 with
    | none =>
      simp only [resolveAll, hr]
      exact ih (resolveModule fs c item.fromAbs item.spec).2 hc'
    | some a =>
      simp only [resolveAll, hr]
      rcases hres a hr with ⟨hspec, hstat⟩
      by_cases hdd : lpre ".." (fileAbsToRel root a).data = true
      · rw [if_pos hdd]
        exact ih (resolveModule fs c item.fromAbs item.spec).2 hc'
      · rw [if_neg hdd]
        rcases ih (resolveModule fs c item.fromAbs item.spec).2 hc' with ⟨ht, hall⟩
        refine ⟨ht, ?_⟩
        intro e he
        rcases List.mem_cons.mp he with rfl | he'
        · exact ⟨hspec, a, hstat, rfl, Bool.not_eq_true _ ▸ hdd⟩
        · exact hall e he'

/-- The resolution loop's nodes and edges depend only on the base cache the
current cache truthfully extends, and truthful extension is preserved. -/
theorem resolveAll_stable (fs : FsEntry) (root : List String) (c₀ : Cache)
    (items : List PendingItem) :
    ∀ c c' : Cache, truthfulFrom fs c₀ c → truthfulFrom fs c₀ c' →
      (resolveAll fs root c items).1 = (resolveAll fs root c' items).1 ∧
      (resolveAll fs root c items).2.1 = (resolveAll fs root c' items).2.1 ∧
      truthfulFrom fs c₀ (resolveAll fs root c items).2.2 := by
  induction items with
  | nil =>
    intro c c' h h'
    exact ⟨rfl, rfl, h⟩
  | cons item rest ih =>
    intro c c' h h'
    rcases resolveModule_stable fs c₀ item.fromAbs item.spec c c' h h' with ⟨hfst, ht⟩
    have ht' : truthfulFrom fs c₀ (resolveModule fs c' item.fromAbs item.spec).2 :=
      (resolveModule_stable fs c₀ item.fromAbs item.spec c' c h' h).2
    cases hr : (resolveModule fs c item.fromAbs item.spec).1 with
    | none =>
      have hr' : (resolveModule fs c' item.fromAbs item.spec).1 = none := by
        rw [← hfst]; exact hr
      simp only [resolveAll, hr, hr']
      exact ih _ _ ht ht'
    | some a =>
      have hr' : (resolveModule fs c' item.fromAbs item.spec).1 = some a := by
        rw [← hfst]; exact hr
      simp only [resolveAll, hr, hr']
      rcases ih (resolveModule fs c item.fromAbs item.spec).2
        (resolveModule fs c' item.fromAbs item.spec).2 ht ht' with ⟨h1, h2, h3⟩
      by_cases hdd : lpre ".." (fileAbsToRel root a).data = true
      · rw [if_pos hdd, if_pos hdd]
        exact ⟨h1, h2, h3⟩
      · rw [if_neg hdd, if_neg hdd]
        exact ⟨by rw [h1], by rw [h2], h3⟩

/-- The resolution loop over a concatenation is the loop over the first
part followed by the loop over the second from the intermediate cache. -/
theorem resolveAll_append (fs : FsEntry) (root : List String)
    (xs ys : List PendingItem) :
    ∀ c : Cache,
      (resolveAll fs root c (xs ++ ys)).1 =
        (resolveAll fs root c xs).1 ++
          (resolveAll fs root (resolveAll fs root c xs).2.2 ys).1 ∧
      (resolveAll fs root c (xs ++ ys)).2.1 =
        (resolveAll fs root c xs).2.1 ++
          (resolveAll fs root (resolveAll fs root c xs).2.2 ys).2.1 ∧
      (resolveAll fs root c (xs ++ ys)).2.2 =
        (resolveAll fs root (resolveAll fs root c xs).2.2 ys).2.2 := by
  induction xs with
  | nil =>
    intro c
    exact ⟨rfl, rfl, rfl⟩
  | cons item rest ih =>
    intro c
    cases hr : (resolveModule fs c item.fromAbs item.spec).1 with
    | none =>
      simp only [List.cons_append, resolveAll, hr]
      exact ih _
    | some a =>
      simp only [List.cons_append, resolveAll, hr]
      simp only [List.append_eq]
      by_cases hdd : lpre ".." (fileAbsToRel root a).data = true
      · rw [if_pos hdd, if_pos hdd]
        exact ih _
      · rw [if_neg hdd, if_neg hdd]
        rcases ih (resolveModule fs c item.fromAbs item.spec).2 with ⟨h1, h2, h3⟩
        exact ⟨by rw [h1]; rfl, by rw [h2]; rfl, h3⟩

/-- The resolution loop preserves truthful extension of the base cache. -/
theorem resolveAll_truthfulFrom (fs : FsEntry) (root : List String) (c₀ : Cache)
    (items : List PendingItem) (c : Cache) (h : truthfulFrom fs c₀ c) :
    truthfulFrom fs c₀ (resolveAll fs root c items).2.2 :=
  (resolveAll_stable fs root c₀ items c c h h).2.2

/-- The common prefix length never exceeds the first list's length. -/
theorem commonLen_le (as : List String) : ∀ bs, commonLen as bs ≤ as.length := by
  induction as with
  | nil => intro bs; cases bs <;> simp [commonLen]
  | cons a as ih =>
    intro bs
    cases bs with
    | nil => simp [commonLen]
    | cons b bs =>
      simp only [commonLen, List.length_cons]
      by_cases hab : a = b
      · rw [if_pos hab]
        exact Nat.add_le_add_right (ih bs) 1
      · rw [if_neg hab]
        exact Nat.zero_le _
/-- A full-length common prefix is a prefix. -/
theorem commonLen_full (as : List String) :
    ∀ bs, commonLen as bs = as.length → as.isPrefixOf bs = true := by
  induction as with
  | nil => intro bs _; cases bs <;> rfl
  | cons a as ih =>
    intro bs h
    cases bs with
    | nil => simp [commonLen] at h
    | cons b bs =>
      simp only [commonLen, List.length_cons] at h
      by_cases hab : a = b
      · rw [if_pos hab] at h
        subst hab
        show (a == a && as.isPrefixOf bs) = true
        simp [ih bs (by omega)]
      · rw [if_neg hab] at h
        omega

/-- If the repository-relative rendering of an absolute path does not start
with `..`, the path lies under the repository root. -/
theorem rel_no_dotdot_under_root (root a : List String)
    (h : lpre ".." (fileAbsToRel root a).data = false) :
    root.isPrefixOf a = true := by
  by_cases hk : commonLen root a = root.length
  · exact commonLen_full root a hk
  · exfalso
    have hle := commonLen_le root a
    have hm : ∃ m, root.length - commonLen root a = m + 1 := by
      refine ⟨root.length - commonLen root a - 1, ?_⟩
      omega
    rcases hm with ⟨m, hm⟩
    have : fileAbsToRel root a =
        String.mk (joinSlashData (("..".data) ::
          ((List.replicate m ".." ++ a.drop (commonLen root a)).map String.data))) := by
      unfold fileAbsToRel relSegs
      rw [hm]
      rfl
    rw [this] at h
    cases hxs : (List.replicate m ".." ++ a.drop (commonLen root a)).map String.data with
    | nil => rw [hxs] at h; simp [joinSlashData, lpre, List.isPrefixOf] at h
    | cons x xs => rw [hxs] at h; simp [joinSlashData, lpre, List.isPrefixOf] at h

/-- Membership in the deduplicated list. -/
theorem mem_dedupFirstAux {α : Type} [DecidableEq α] (x : α) :
    ∀ (l seen : List α), x ∈ dedupFirstAux seen l ↔ x ∈ l ∧ x ∉ seen := by
  intro l
  induction l with
  | nil => intro seen; simp [dedupFirstAux]
  | cons a l ih =>
    intro seen
    simp only [dedupFirstAux]
    by_cases ha : a ∈ seen
    · rw [if_pos ha, ih seen]
      constructor
      · rintro ⟨hl, hs⟩
        exact ⟨List.mem_cons_of_mem a hl, hs⟩
      · rintro ⟨hal, hs⟩
        rcases List.mem_cons.mp hal with rfl | hl
        · exact absurd ha hs
        · exact ⟨hl, hs⟩
    · rw [if_neg ha]
      constructor
      · intro hx
        rcases List.mem_cons.mp hx with rfl | hx'
        · exact ⟨List.mem_cons_self x l, ha⟩
        · rcases (ih (a :: seen)).mp hx' with ⟨hl, hs⟩
          exact ⟨List.mem_cons_of_mem a hl, fun hxs => hs (List.mem_cons_of_mem a hxs)⟩
      · rintro ⟨hal, hs⟩
        rcases List.mem_cons.mp hal with rfl | hl
        · exact List.mem_cons_self x _
        · by_cases hxa : x = a
          · subst hxa
            exact List.mem_cons_self x _
          · refine List.mem_cons_of_mem a ((ih (a :: seen)).mpr ⟨hl, ?_⟩)
            intro hxs
            rcases List.mem_cons.mp hxs with h | h
            · exact hxa h
            · exact hs h

/-- `[...new Set(xs)]` has the same members as `xs`. -/
theorem mem_dedupFirst {α : Type} [DecidableEq α] (x : α) (l : List α) :
    x ∈ dedupFirst l ↔ x ∈ l := by
  unfold dedupFirst
  rw [mem_dedupFirstAux]
  simp

/-- C8 (corrected): every edge the builder produces from a pristine global
state has a path-like module specifier — one starting with `.` or `/`, so a
bare/package-style import never yields an edge — and its `to` path is the
repository-relative rendering of an absolute path that lies under the
repository root and on which `stat` succeeds; the target can be a file or a
directory, since `stat` succeeds on directories and the bare `base`
candidate is probed before the `index.*` candidates. -/
theorem buildCodeGraph_edge_invariant (parse : List String → Option FileInfo)
    (fuel : Nat) (fs : FsEntry) (repoDir : List String) :
    ∀ e ∈ (buildCodeGraph parse fuel fs repoDir ⟨[], []⟩).1.edges,
      (lpre "." e.module.data || lpre "/" e.module.data) = true ∧
      ∃ a, (statPath fs a).isSome = true ∧ repoDir.isPrefixOf a = true ∧
        e.toFile = fileAbsToRel repoDir a := by
  intro e he
  have hedges : (buildCodeGraph parse fuel fs repoDir ⟨[], []⟩).1.edges =
      (resolveAll fs repoDir []
        ([] ++ phase1Items parse repoDir (discoverSourceFiles fuel fs repoDir))).2.1 := rfl
  rw [hedges] at he
  rcases (resolveAll_spec fs repoDir
      ([] ++ phase1Items parse repoDir (discoverSourceFiles fuel fs repoDir)) []
      (truthful_nil fs)).2 e he with ⟨hspec, a, hstat, hto, hdd⟩
  exact ⟨hspec, a, hstat, rel_no_dotdot_under_root repoDir a hdd, hto⟩

set_option maxRecDepth 1000000 in
/-- Witness for `buildCodeGraph_edge_invariant` at the directory-import
example. -/
theorem buildCodeGraph_edge_invariant_witness :
    (⟨"a.ts", "u", "./u"⟩ : Edge) ∈
        (buildCodeGraph cxParse 5 cxFs ["repo"] ⟨[], []⟩).1.edges ∧
      ((lpre "." ("./u" : String).data || lpre "/" ("./u" : String).data) = true ∧
        ∃ a, (statPath cxFs a).isSome = true ∧ (["repo"] : List String).isPrefixOf a = true ∧
          "u" = fileAbsToRel ["repo"] a) :=
  ⟨by decide, buildCodeGraph_edge_invariant cxParse 5 cxFs ["repo"]
      ⟨"a.ts", "u", "./u"⟩ (by decide)⟩

/-- Re-running the resolution loop with the previous run's cache and with
the previous run's pending items still in front resolves every item to the
same answer, so the second run's nodes and edges have exactly the members
of the first run's. -/
theorem resolveAll_rerun (fs : FsEntry) (root : List String) (P N : List PendingItem)
    (c₀ : Cache) :
    (∀ x, x ∈ (resolveAll fs root (resolveAll fs root c₀ (P ++ N)).2.2 ((P ++ N) ++ N)).1 ↔
        x ∈ (resolveAll fs root c₀ (P ++ N)).1) ∧
    (∀ e, e ∈ (resolveAll fs root (resolveAll fs root c₀ (P ++ N)).2.2 ((P ++ N) ++ N)).2.1 ↔
        e ∈ (resolveAll fs root c₀ (P ++ N)).2.1) := by
  have hA : truthfulFrom fs c₀ c₀ := truthfulFrom_refl fs c₀
  have hR1 : truthfulFrom fs c₀ (resolveAll fs root c₀ (P ++ N)).2.2 :=
    resolveAll_truthfulFrom fs root c₀ (P ++ N) c₀ hA
  have hA0 : truthfulFrom fs c₀ (resolveAll fs root c₀ P).2.2 :=
    resolveAll_truthfulFrom fs root c₀ P c₀ hA
  rcases resolveAll_append fs root P N c₀ with ⟨e1a, e1b, e1c⟩
  rcases resolveAll_append fs root (P ++ N) N (resolveAll fs root c₀ (P ++ N)).2.2 with
    ⟨e2a, e2b, e2c⟩
  rcases resolveAll_stable fs root c₀ (P ++ N)
      (resolveAll fs root c₀ (P ++ N)).2.2 c₀ hR1 hA with ⟨sA1, sA2, sA3⟩
  rcases resolveAll_stable fs root c₀ N
      (resolveAll fs root (resolveAll fs root c₀ (P ++ N)).2.2 (P ++ N)).2.2
      (resolveAll fs root c₀ P).2.2 sA3 hA0 with ⟨sB1, sB2, sB3⟩
  constructor
  · intro x
    rw [e2a, sA1, sB1]
    constructor
    · intro hx
      rcases List.mem_append.mp hx with h | h
      · exact h
      · rw [e1a]
        exact List.mem_append.mpr (Or.inr h)
    · intro hx
      exact List.mem_append.mpr (Or.inl hx)
  · intro e
    rw [e2b, sA2, sB2]
    constructor
    · intro hx
      rcases List.mem_append.mp hx with h | h
      · exact h
      · rw [e1b]
        exact List.mem_append.mpr (Or.inr h)
    · intro hx
      exact List.mem_append.mpr (Or.inl hx)

/-- C2: running the builder twice in succession on the same unchanged tree
with the same inputs — the `fileExistsCache` and `pendingResolutions`
globals carried from the first run into the second — yields the same node
set, the same edge set (the never-cleared pending items are re-resolved
through the cache to the same answers, duplicating edge occurrences but
adding no new edge and no new node), and identical per-file definition
lists in identical order. -/
theorem buildCodeGraph_idempotent (parse : List String → Option FileInfo)
    (fuel : Nat) (fs : FsEntry) (repoDir : List String) (st : GlobalState) :
    (∀ n, n ∈ (buildCodeGraph parse fuel fs repoDir
          (buildCodeGraph parse fuel fs repoDir st).2).1.nodes ↔
        n ∈ (buildCodeGraph parse fuel fs repoDir st).1.nodes) ∧
    (∀ e, e ∈ (buildCodeGraph parse fuel fs repoDir
          (buildCodeGraph parse fuel fs repoDir st).2).1.edges ↔
        e ∈ (buildCodeGraph parse fuel fs repoDir st).1.edges) ∧
    (buildCodeGraph parse fuel fs repoDir
        (buildCodeGraph parse fuel fs repoDir st).2).1.definitions =
      (buildCodeGraph parse fuel fs repoDir st).1.definitions := by
  refine ⟨?_, ?_, rfl⟩
  · intro n
    have h := (resolveAll_rerun fs repoDir st.pendingResolutions
      (phase1Items parse repoDir (discoverSourceFiles fuel fs repoDir))
      st.fileExistsCache).1 n
    show n ∈ dedupFirst (phase1Nodes repoDir (discoverSourceFiles fuel fs repoDir) ++
        (resolveAll fs repoDir
          (resolveAll fs repoDir st.fileExistsCache
            (st.pendingResolutions ++
              phase1Items parse repoDir (discoverSourceFiles fuel fs repoDir))).2.2
          ((st.pendingResolutions ++
              phase1Items parse repoDir (discoverSourceFiles fuel fs repoDir)) ++
            phase1Items parse repoDir (discoverSourceFiles fuel fs repoDir))).1) ↔
      n ∈ dedupFirst (phase1Nodes repoDir (discoverSourceFiles fuel fs repoDir) ++
        (resolveAll fs repoDir st.fileExistsCache
          (st.pendingResolutions ++
            phase1Items parse repoDir (discoverSourceFiles fuel fs repoDir))).1)
    rw [mem_dedupFirst, mem_dedupFirst]
    simp only [List.mem_append]
    exact or_congr Iff.rfl h
  · intro e
    have h := (resolveAll_rerun fs repoDir st.pendingResolutions
      (phase1Items parse repoDir (discoverSourceFiles fuel fs repoDir))
      st.fileExistsCache).2 e
    show e ∈ (resolveAll fs repoDir
          (resolveAll fs repoDir st.fileExistsCache
            (st.pendingResolutions ++
              phase1Items parse repoDir (discoverSourceFiles fuel fs repoDir))).2.2
          ((st.pendingResolutions ++
              phase1Items parse repoDir (discoverSourceFiles fuel fs repoDir)) ++
            phase1Items parse repoDir (discoverSourceFiles fuel fs repoDir))).2.1 ↔
      e ∈ (resolveAll fs repoDir st.fileExistsCache
          (st.pendingResolutions ++
            phase1Items parse repoDir (discoverSourceFiles fuel fs repoDir))).2.1
    exact h

set_option maxRecDepth 1000000 in
/-- C8 counterexample to "resolved to an on-disk file": `a.ts` imports
`./u`; `u` is a directory, `stat` succeeds on it (the bare `base` candidate
is probed before `u/index.ts`), and the edge to the directory `u` is
produced. -/
theorem buildCodeGraph_dir_edge_counterexample :
    (buildCodeGraph cxParse 5 cxFs ["repo"] ⟨[], []⟩).1.edges =
        [⟨"a.ts", "u", "./u"⟩] ∧
      fileAbsToRel ["repo"] ["repo", "u"] = "u" ∧
      (statPath cxFs ["repo", "u"]).map isDirE = some true := by decide

end AiReview
